import Mathlib

/-!
# sqsmv: a verification development of `main.go`

`main.go` moves messages from a source SQS queue to a destination queue.
This file embeds its functions in Lean and proves properties of them.

Modelling conventions.

* A Go `*string` is an `Option String`; `none` is the nil pointer.  Reading
  through a nil pointer (`*p`) is a run-time panic, modelled by `Except`.
* A Go `map[string]*string` is an association list; indexing a key that is
  not in the map yields the nil pointer, as in Go.
* The SQS client is the environment.  What `ReceiveMessage` returns to a
  worker is a script of poll responses, and whether a `SendMessage` or a
  `DeleteMessage` call succeeds is given by an oracle, so every theorem
  quantifies over all behaviours of the queue service.
* Every call made to the queue service is recorded as an `Event`.
* The per-message goroutines of one batch are run one after the other in
  batch order, which is one of the schedules the Go program admits.
-/

namespace Sqsmv

/-! ## Data model (the parts of the `sqs` package that `main.go` touches) -/

/-- Go `map[string]*string`, the type of `sqs.Message.Attributes`. -/
abbrev AttrMap := List (String × Option String)

/-- Go map indexing `m[k]`: the stored pointer, or nil when `k` is not a key. -/
def AttrMap.index (m : AttrMap) (k : String) : Option String :=
  match m.lookup k with
  | some p => p
  | none => none

/-- Custom message attributes (`map[string]*sqs.MessageAttributeValue`); the
program only copies this value, so its entries are kept as opaque pairs. -/
abbrev MessageAttributeMap := List (String × String)

/-- The fields of `sqs.Message` that the program reads. -/
structure Message where
  Attributes : AttrMap
  MessageAttributes : MessageAttributeMap
  Body : Option String
  ReceiptHandle : Option String
deriving DecidableEq, Repr

/-- The fields of `sqs.SendMessageInput` that the program sets; a field left
out of a Go composite literal is nil. -/
structure SendMessageInput where
  MessageAttributes : MessageAttributeMap
  MessageBody : Option String
  QueueUrl : Option String
  MessageGroupId : Option String
  MessageDeduplicationId : Option String
deriving DecidableEq, Repr

/-- The `sqs.DeleteMessageInput` of main.go:141. -/
structure DeleteMessageInput where
  QueueUrl : Option String
  ReceiptHandle : Option String
deriving DecidableEq, Repr

/-- The `sqs.ReceiveMessageInput` built at main.go:46. -/
structure ReceiveMessageInput where
  QueueUrl : Option String
  MaxNumberOfMessages : Int
  WaitTimeSeconds : Int
  MessageAttributeNames : List String
  AttributeNames : List String
deriving DecidableEq, Repr

/-- What one `client.ReceiveMessage(rmin)` call returns: `resp.Messages` and
`err` (nil is `none`).  The SDK returns a non-nil `resp` also with an error. -/
structure ReceiveResult where
  Messages : List Message
  err : Option String
deriving DecidableEq, Repr

/-- Run-time panics of the program. -/
inductive Fault where
  | nilDereference
  | receiveError (err : String)
deriving DecidableEq, Repr

/-- Go `*p` on a `*string`. -/
def deref (p : Option String) : Except Fault String :=
  match p with
  | some s => .ok s
  | none => .error .nilDereference

/-! ## The two builders (main.go:64-90) -/

/-- main.go:66.  Both `log.Printf` lines dereference the looked-up pointer
before the struct is built. -/
def buildFifoMessageInput (m : Message) (dest : Option String) :
    Except Fault SendMessageInput :=
  let messageGroupID := m.Attributes.index "MessageGroupId"
  let messageDeduplicationID := m.Attributes.index "MessageDeduplicationId"
  match deref messageGroupID with
  | .error f => .error f
  | .ok _ =>
    match deref messageDeduplicationID with
    | .error f => .error f
    | .ok _ =>
      .ok { MessageAttributes := m.MessageAttributes
            MessageBody := m.Body
            QueueUrl := dest
            MessageGroupId := messageGroupID
            MessageDeduplicationId := messageDeduplicationID }

/-- main.go:83. -/
def buildStandardMessageInput (m : Message) (dest : Option String) : SendMessageInput :=
  { MessageAttributes := m.MessageAttributes
    MessageBody := m.Body
    QueueUrl := dest
    MessageGroupId := none
    MessageDeduplicationId := none }

/-! ## Calls to the queue service -/

/-- One call to the SQS client together with its reported outcome. -/
inductive Event where
  | receive (rmin : ReceiveMessageInput) (resp : ReceiveResult)
  | send (smi : SendMessageInput) (ok : Bool)
  | delete (dmi : DeleteMessageInput) (ok : Bool)
deriving DecidableEq, Repr

/-- Outcome of every send and delete call, by poll number and position of the
message in its batch. -/
structure Oracle where
  sendOk : Nat → Nat → Bool
  deleteOk : Nat → Nat → Bool

/-- The queue service in which every send and every delete succeeds. -/
def Oracle.allSucceed : Oracle := ⟨fun _ _ => true, fun _ _ => true⟩

/-- The `if *fifo` of main.go:127-131. -/
def buildMessageInput (fifo : Bool) (m : Message) (dest : Option String) :
    Except Fault SendMessageInput :=
  if fifo then buildFifoMessageInput m dest else .ok (buildStandardMessageInput m dest)

/-- The goroutine body of main.go:123-151 for one message: the calls it makes
and `some fault` when it panics.  `sendOk` and `deleteOk` say whether the
send and the delete report success. -/
def messageUnit (fifo : Bool) (rmin : ReceiveMessageInput) (dest : Option String)
    (m : Message) (sendOk deleteOk : Bool) : List Event × Option Fault :=
  match buildMessageInput fifo m dest with
  | .error f => ([], some f)
  | .ok smi =>
    if !sendOk then
      ([.send smi false], none)
    else
      let dmi : DeleteMessageInput :=
        { QueueUrl := rmin.QueueUrl, ReceiptHandle := m.ReceiptHandle }
      if deleteOk then
        ([.send smi true, .delete dmi true], none)
      else
        -- main.go:147 logs `*m.ReceiptHandle`
        match deref m.ReceiptHandle with
        | .error f => ([.send smi true, .delete dmi false], some f)
        | .ok _ => ([.send smi true, .delete dmi false], none)

/-- The delete calls of a trace, in order. -/
def deletesOf : List Event → List DeleteMessageInput
  | [] => []
  | .delete dmi _ :: es => dmi :: deletesOf es
  | _ :: es => deletesOf es

/-- The send calls of a trace, in order. -/
def sendsOf : List Event → List SendMessageInput
  | [] => []
  | .send smi _ :: es => smi :: sendsOf es
  | _ :: es => sendsOf es

/-- The reported outcome of the send calls of a trace, in order. -/
def sendOutcomes : List Event → List Bool
  | [] => []
  | .send _ ok :: es => ok :: sendOutcomes es
  | _ :: es => sendOutcomes es

/-- The calls of a trace that are polls, with their responses, in order. -/
def receivesOf : List Event → List ReceiveResult
  | [] => []
  | .receive _ resp :: es => resp :: receivesOf es
  | _ :: es => receivesOf es

/-! ## The transfer worker (main.go:93-157) -/

/-- The goroutines started for one batch (main.go:122-152) and the
`wg.Wait()` of main.go:155, for the messages from position `j` on.  A panic
in a goroutine ends the program, so no later call is recorded. -/
def processBatch (fifo : Bool) (rmin : ReceiveMessageInput) (dest : Option String)
    (o : Oracle) (poll : Nat) : Nat → List Message → List Event × Option Fault
  | _, [] => ([], none)
  | j, m :: ms =>
    match messageUnit fifo rmin dest m (o.sendOk poll j) (o.deleteOk poll j) with
    | (ev, some f) => (ev, some f)
    | (ev, none) =>
      ((ev ++ (processBatch fifo rmin dest o poll (j + 1) ms).1),
        (processBatch fifo rmin dest o poll (j + 1) ms).2)

/-- How a worker stands: `awaiting` is a worker inside its loop whose next
`ReceiveMessage` call has not returned, `returned` is the clean `return` of
main.go:113, `panicked` is an unrecovered panic. -/
inductive Outcome where
  | awaiting
  | returned
  | panicked (f : Fault)
deriving DecidableEq, Repr

/-- What one pass through the `for` body decides. -/
inductive Step where
  | next (lastMessageCount : Nat)
  | done (out : Outcome)
deriving DecidableEq, Repr

/-- One pass through the body of the `for` of main.go:101-156, given the
response `resp` to its `ReceiveMessage` call. -/
def loopBody (fifo : Bool) (rmin : ReceiveMessageInput) (dest : Option String)
    (o : Oracle) (lastMessageCount poll : Nat) (resp : ReceiveResult) :
    List Event × Step :=
  match resp.err with
  | some e => ([.receive rmin resp], .done (.panicked (.receiveError e)))
  | none =>
    if lastMessageCount == 0 && resp.Messages.length == 0 then
      ([.receive rmin resp], .done .returned)
    else
      match processBatch fifo rmin dest o poll 0 resp.Messages with
      | (ev, some f) => (.receive rmin resp :: ev, .done (.panicked f))
      | (ev, none) => (.receive rmin resp :: ev, .next resp.Messages.length)

/-- The calls a worker made and how it stands. -/
structure Run where
  trace : List Event
  outcome : Outcome
deriving DecidableEq, Repr

/-- The `for` loop of main.go:101 started with the given `lastMessageCount`,
at poll number `poll`, against the responses the queue gives to its polls. -/
def loop (fifo : Bool) (rmin : ReceiveMessageInput) (dest : Option String) (o : Oracle) :
    Nat → Nat → List ReceiveResult → Run
  | _, _, [] => ⟨[], .awaiting⟩
  | lastMessageCount, poll, resp :: rest =>
    match loopBody fifo rmin dest o lastMessageCount poll resp with
    | (ev, .done out) => ⟨ev, out⟩
    | (ev, .next n) =>
      ⟨ev ++ (loop fifo rmin dest o n (poll + 1) rest).trace,
        (loop fifo rmin dest o n (poll + 1) rest).outcome⟩

/-- main.go:93: `lastMessageCount := int(1)`, then the loop. -/
def transferMessages (rmin : ReceiveMessageInput) (dest : Option String) (fifo : Bool)
    (o : Oracle) (polls : List ReceiveResult) : Run :=
  loop fifo rmin dest o 1 0 polls

/-- The sizes of the batches returned by the successful polls of a trace. -/
def batchSizes : List Event → List Nat
  | [] => []
  | .receive _ resp :: es =>
    match resp.err with
    | none => resp.Messages.length :: batchSizes es
    | some _ => batchSizes es
  | _ :: es => batchSizes es

/-- The messages returned by the successful polls of a trace, in order. -/
def receivedMessages : List Event → List Message
  | [] => []
  | .receive _ resp :: es =>
    match resp.err with
    | none => resp.Messages ++ receivedMessages es
    | some _ => receivedMessages es
  | _ :: es => receivedMessages es

/-- The calls of the per-message units of the listed instances of poll `p`,
each given as (position in the batch, message), one unit after the other. -/
def unitCalls (fifo : Bool) (rmin : ReceiveMessageInput) (dest : Option String)
    (o : Oracle) (p : Nat) : List (Nat × Message) → List Event
  | [] => []
  | (j, m) :: rest =>
    (messageUnit fifo rmin dest m (o.sendOk p j) (o.deleteOk p j)).1
      ++ unitCalls fifo rmin dest o p rest

/-- The system attributes the mode reads are present: group id and
deduplication id in FIFO mode, nothing in standard mode. -/
def hasModeAttributes (fifo : Bool) (m : Message) : Bool :=
  !fifo || ((m.Attributes.index "MessageGroupId").isSome
    && (m.Attributes.index "MessageDeduplicationId").isSome)

/-- Every poll of the script succeeds and every message it returns has the
attributes its mode requires. -/
def pollsWellFormed (fifo : Bool) (polls : List ReceiveResult) : Bool :=
  polls.all fun r => r.err.isNone && r.Messages.all fun m => hasModeAttributes fifo m

/-- Every message returned by the script carries a receipt handle. -/
def pollsHaveReceiptHandles (polls : List ReceiveResult) : Bool :=
  polls.all fun r => r.Messages.all fun m => m.ReceiptHandle.isSome

/-- The stop condition in the words of the specification, on a sequence of
batch sizes with polls numbered from `0`: batch `k` and batch `k - 1` both
have size `0`, and `k` is the first such index. -/
def firstEmptyPairAt (sizes : List Nat) (k : Nat) : Prop :=
  1 ≤ k ∧ sizes[k]? = some 0 ∧ sizes[k - 1]? = some 0
    ∧ ∀ j, j < k → 1 ≤ j → ¬ (sizes[j]? = some 0 ∧ sizes[j - 1]? = some 0)

instance (sizes : List Nat) (k : Nat) : Decidable (firstEmptyPairAt sizes k) := by
  unfold firstEmptyPairAt
  infer_instance

/-! ## The orchestrator (main.go:14-62) -/

/-- The flag values after `flag.Parse()` (main.go:15-19). -/
structure Flags where
  src : String
  dest : String
  clients : Int
  fifo : Bool
deriving DecidableEq, Repr

/-- What `main` does, in program order. -/
inductive MainEvent where
  | usage
  | exit (code : Int)
  | log (what : String)
  | newSession
  | sessionPanic
  | wgAdd (delta : Int)
  | goTransferMessages
  | wgWait
deriving DecidableEq, Repr

/-- The test of main.go:21. -/
def flagsRejected (f : Flags) : Bool :=
  f.src == "" || f.dest == "" || decide (f.clients < 1)

/-- The `for i := 1; i <= *clients; i++` of main.go:55-58 from `i` on; `fuel`
bounds the number of passes. -/
def launchLoop (clients : Int) : Nat → Int → List MainEvent
  | 0, _ => []
  | fuel + 1, i =>
    if i ≤ clients then
      .wgAdd i :: .goTransferMessages :: launchLoop clients fuel (i + 1)
    else []

/-- `main` up to and including its call of `wg.Wait()` (main.go:14-59);
`sessionOk` says whether `session.NewSessionWithOptions` succeeded. -/
def main (f : Flags) (sessionOk : Bool) : List MainEvent :=
  if flagsRejected f then
    [.usage, .exit 1]
  else
    [.log "source queue", .log "destination queue", .log "number of clients",
      .log "is this a fifo queue?", .newSession]
    ++ (if sessionOk then launchLoop f.clients f.clients.toNat 1 ++ [.wgWait]
        else [.sessionPanic])

/-- The counter of the wait group of main.go:54 after the `wg.Add` calls of a
trace. -/
def wgCounter : List MainEvent → Int
  | [] => 0
  | .wgAdd delta :: es => delta + wgCounter es
  | _ :: es => wgCounter es

/-- The number of `go transferMessages(...)` statements of a trace. -/
def workersLaunched : List MainEvent → Nat
  | [] => 0
  | .goTransferMessages :: es => workersLaunched es + 1
  | _ :: es => workersLaunched es

/-- The wait group counter once every launched worker has run its deferred
`wgOuter.Done()` (main.go:98) exactly once. -/
def pendingAfterWorkersDone (f : Flags) : Int :=
  wgCounter (main f true) - workersLaunched (main f true)

/-- `wg.Wait()` returns, and main.go:61 logs "all done", only with the counter
at zero. -/
def reachesAllDone (f : Flags) : Bool :=
  pendingAfterWorkersDone f == 0

/-! ## The workers of one process (main.go:55-58)

`main` starts the workers as goroutines of one Go program.  The program has
no `recover`, so the `panic(err)` of main.go:107, like any other panic in a
goroutine, ends the whole program: every goroutine stops with it.  A schedule
says which worker makes its next pass through its loop. -/

/-- One `transferMessages` goroutine: its environment (`oracle`, and `pending`,
the responses the queue will give to its next polls), its loop variables, the
calls it has made and how it stands. -/
structure Worker where
  oracle : Oracle
  lastMessageCount : Nat
  poll : Nat
  pending : List ReceiveResult
  trace : List Event
  outcome : Outcome

/-- A worker at the start of `transferMessages`. -/
def Worker.start (env : Oracle × List ReceiveResult) : Worker :=
  ⟨env.1, 1, 0, env.2, [], .awaiting⟩

/-- One pass of a running worker through its loop body. -/
def Worker.step (fifo : Bool) (rmin : ReceiveMessageInput) (dest : Option String)
    (w : Worker) : Worker :=
  match w.outcome, w.pending with
  | .awaiting, resp :: rest =>
    match loopBody fifo rmin dest w.oracle w.lastMessageCount w.poll resp with
    | (ev, .done out) => { w with pending := rest, trace := w.trace ++ ev, outcome := out }
    | (ev, .next n) =>
      { w with lastMessageCount := n, poll := w.poll + 1, pending := rest,
               trace := w.trace ++ ev }
  | _, _ => w

/-- The worker ended in a panic. -/
def Outcome.isPanicked : Outcome → Bool
  | .panicked _ => true
  | _ => false

/-- The Go program: its workers and whether a panic has ended it. -/
structure Process where
  workers : List Worker
  crashed : Bool

/-- The program after `main` has started one worker per environment. -/
def Process.start (envs : List (Oracle × List ReceiveResult)) : Process :=
  ⟨envs.map Worker.start, false⟩

/-- Worker `i` is scheduled for one pass.  Nothing runs in a program that a
panic has ended. -/
def Process.step (fifo : Bool) (rmin : ReceiveMessageInput) (dest : Option String)
    (p : Process) (i : Nat) : Process :=
  if p.crashed then p
  else
    match p.workers[i]? with
    | none => p
    | some w =>
      ⟨p.workers.set i (w.step fifo rmin dest), (w.step fifo rmin dest).outcome.isPanicked⟩

/-- The program run under a schedule. -/
def Process.run (fifo : Bool) (rmin : ReceiveMessageInput) (dest : Option String)
    (p : Process) (schedule : List Nat) : Process :=
  schedule.foldl (Process.step fifo rmin dest) p

/-- The run a worker completes if it is left to run on its own from where it
stands. -/
def Worker.final (fifo : Bool) (rmin : ReceiveMessageInput) (dest : Option String)
    (w : Worker) : Run :=
  match w.outcome with
  | .awaiting =>
    ⟨w.trace ++ (loop fifo rmin dest w.oracle w.lastMessageCount w.poll w.pending).trace,
      (loop fifo rmin dest w.oracle w.lastMessageCount w.poll w.pending).outcome⟩
  | out => ⟨w.trace, out⟩

/-- The statement that a fatal poll fault leaves the sibling workers
unaffected: whenever some worker has panicked on a receive error, the run can
be continued so that every other worker makes exactly the calls it makes when
it runs on its own. -/
def siblingsUnaffected (fifo : Bool) (rmin : ReceiveMessageInput) (dest : Option String)
    (envs : List (Oracle × List ReceiveResult)) : Prop :=
  ∀ (schedule : List Nat) (i : Nat) (w : Worker) (e : String),
    (Process.run fifo rmin dest (Process.start envs) schedule).workers[i]? = some w →
    w.outcome = .panicked (.receiveError e) →
    ∃ more : List Nat, ∀ (j : Nat) (env : Oracle × List ReceiveResult),
      j ≠ i → envs[j]? = some env →
      ∃ w', (Process.run fifo rmin dest (Process.start envs) (schedule ++ more)).workers[j]?
          = some w'
        ∧ w'.trace = (transferMessages rmin dest fifo env.1 env.2).trace

/-! ## Example data -/

/-- The receive request of main.go:46 for the queue `src`. -/
def mkReceiveInput (src : String) : ReceiveMessageInput :=
  { QueueUrl := some src
    MaxNumberOfMessages := 10
    WaitTimeSeconds := 0
    MessageAttributeNames := ["All"]
    AttributeNames := ["All"] }

/-- A message of a FIFO queue. -/
def exFifoMessage : Message :=
  { Attributes := [("MessageGroupId", some "G1"), ("MessageDeduplicationId", some "D1")]
    MessageAttributes := [("k", "v")]
    Body := some "x"
    ReceiptHandle := some "rh-1" }

/-- A message whose system attributes have no deduplication id. -/
def exNoDedupMessage : Message :=
  { Attributes := [("MessageGroupId", some "G1")]
    MessageAttributes := []
    Body := some "y"
    ReceiptHandle := some "rh-2" }

/-- The queue service in which every send succeeds and every delete fails. -/
def Oracle.deletesFail : Oracle := ⟨fun _ _ => true, fun _ _ => false⟩

/-- The queue service in which every send fails. -/
def Oracle.sendsFail : Oracle := ⟨fun _ _ => false, fun _ _ => true⟩

/-- A script: one message, then two empty batches. -/
def exPolls : List ReceiveResult :=
  [⟨[exFifoMessage], none⟩, ⟨[], none⟩, ⟨[], none⟩]

/-- A script: an empty batch, a batch of one, then two empty batches and one
more response that is never asked for. -/
def exPollsEmptyFirst : List ReceiveResult :=
  [⟨[], none⟩, ⟨[exFifoMessage], none⟩, ⟨[], none⟩, ⟨[], none⟩, ⟨[exFifoMessage], none⟩]

/-- Two workers: the first poll of worker 0 fails, worker 1 is offered one
message and then two empty batches. -/
def exTwoWorkers : List (Oracle × List ReceiveResult) :=
  [(Oracle.allSucceed, [⟨[], some "timeout"⟩]), (Oracle.allSucceed, exPolls)]

/-! ## Theorems -/

/-! ### Unfolding the loop -/

theorem loop_cons_done (fifo : Bool) (rmin : ReceiveMessageInput) (dest : Option String)
    (o : Oracle) (last poll : Nat) (resp : ReceiveResult) (rest : List ReceiveResult)
    (ev : List Event) (out : Outcome)
    (h : loopBody fifo rmin dest o last poll resp = (ev, .done out)) :
    loop fifo rmin dest o last poll (resp :: rest) = ⟨ev, out⟩ := by
  simp [loop, h]

theorem loop_cons_next (fifo : Bool) (rmin : ReceiveMessageInput) (dest : Option String)
    (o : Oracle) (last poll : Nat) (resp : ReceiveResult) (rest : List ReceiveResult)
    (ev : List Event) (n : Nat)
    (h : loopBody fifo rmin dest o last poll resp = (ev, .next n)) :
    loop fifo rmin dest o last poll (resp :: rest)
      = ⟨ev ++ (loop fifo rmin dest o n (poll + 1) rest).trace,
          (loop fifo rmin dest o n (poll + 1) rest).outcome⟩ := by
  simp [loop, h]

/-- A pass through the loop body never leaves the worker `awaiting`. -/
theorem loopBody_ne_done_awaiting (fifo : Bool) (rmin : ReceiveMessageInput)
    (dest : Option String) (o : Oracle) (last poll : Nat) (resp : ReceiveResult)
    (ev : List Event) :
    loopBody fifo rmin dest o last poll resp ≠ (ev, .done .awaiting) := by
  unfold loopBody
  split
  · simp
  · split
    · simp
    · split <;> simp

/-- A poll that returns an error: the pass records the call and panics. -/
theorem loopBody_of_err (fifo : Bool) (rmin : ReceiveMessageInput) (dest : Option String)
    (o : Oracle) (last poll : Nat) (resp : ReceiveResult) (e : String)
    (h : resp.err = some e) :
    loopBody fifo rmin dest o last poll resp
      = ([.receive rmin resp], .done (.panicked (.receiveError e))) := by
  simp [loopBody, h]

/-- A worker that is still inside its loop after the responses `pre` goes on
with the responses that follow. -/
theorem loop_append_of_awaiting (fifo : Bool) (rmin : ReceiveMessageInput)
    (dest : Option String) (o : Oracle) (pre rest : List ReceiveResult) :
    ∀ (last poll : Nat), (loop fifo rmin dest o last poll pre).outcome = .awaiting →
      ∃ n, loop fifo rmin dest o last poll (pre ++ rest)
        = ⟨(loop fifo rmin dest o last poll pre).trace
              ++ (loop fifo rmin dest o n (poll + pre.length) rest).trace,
            (loop fifo rmin dest o n (poll + pre.length) rest).outcome⟩ := by
  induction pre with
  | nil =>
    intro last poll _
    exact ⟨last, by simp [loop]⟩
  | cons r pre ih =>
    intro last poll h
    rcases hb : loopBody fifo rmin dest o last poll r with ⟨ev, st⟩
    cases st with
    | done out =>
      rw [loop_cons_done _ _ _ _ _ _ _ _ _ _ hb] at h
      simp only at h
      subst h
      exact absurd hb (loopBody_ne_done_awaiting _ _ _ _ _ _ _ _)
    | next n =>
      rw [loop_cons_next _ _ _ _ _ _ _ _ _ _ hb] at h
      simp only at h
      obtain ⟨n', hn'⟩ := ih n (poll + 1) h
      refine ⟨n', ?_⟩
      rw [List.cons_append, loop_cons_next _ _ _ _ _ _ _ _ _ _ hb, hn',
        loop_cons_next _ _ _ _ _ _ _ _ _ _ hb]
      simp [List.append_assoc, Nat.add_assoc, Nat.add_comm 1]

/-! ### What a trace holds -/

theorem batchSizes_append (a b : List Event) :
    batchSizes (a ++ b) = batchSizes a ++ batchSizes b := by
  induction a with
  | nil => rfl
  | cons e a ih =>
    cases e with
    | receive r resp =>
      cases h : resp.err <;> simp [batchSizes, h, ih]
    | send smi ok => simpa [batchSizes] using ih
    | delete dmi ok => simpa [batchSizes] using ih

theorem messageUnit_batchSizes (fifo : Bool) (rmin : ReceiveMessageInput)
    (dest : Option String) (m : Message) (sendOk deleteOk : Bool) :
    batchSizes (messageUnit fifo rmin dest m sendOk deleteOk).1 = [] := by
  unfold messageUnit
  cases buildMessageInput fifo m dest with
  | error f => rfl
  | ok smi =>
    cases sendOk <;> cases deleteOk <;> cases m.ReceiptHandle <;> simp [batchSizes, deref]

theorem processBatch_batchSizes (fifo : Bool) (rmin : ReceiveMessageInput)
    (dest : Option String) (o : Oracle) (poll : Nat) (ms : List Message) :
    ∀ j, batchSizes (processBatch fifo rmin dest o poll j ms).1 = [] := by
  induction ms with
  | nil => intro j; rfl
  | cons m ms ih =>
    intro j
    have hu := messageUnit_batchSizes fifo rmin dest m (o.sendOk poll j) (o.deleteOk poll j)
    unfold processBatch
    rcases hm : messageUnit fifo rmin dest m (o.sendOk poll j) (o.deleteOk poll j)
      with ⟨ev, _ | f⟩
    · rw [hm] at hu
      simp only [batchSizes_append, ih]
      simpa using hu
    · rw [hm] at hu
      simpa using hu

/-- The three ways a pass through the loop body can go, with the batch size
it received. -/
theorem loopBody_batchSizes (fifo : Bool) (rmin : ReceiveMessageInput)
    (dest : Option String) (o : Oracle) (last poll : Nat) (resp : ReceiveResult)
    (ev : List Event) (st : Step)
    (h : loopBody fifo rmin dest o last poll resp = (ev, st)) :
    ((∃ f, st = .done (.panicked f)) ∧ batchSizes ev = [])
    ∨ (last = 0 ∧ st = .done .returned ∧ batchSizes ev = [0])
    ∨ (¬ (last = 0 ∧ resp.Messages.length = 0)
        ∧ batchSizes ev = [resp.Messages.length]
        ∧ ((∃ f, st = .done (.panicked f)) ∨ st = .next resp.Messages.length)) := by
  unfold loopBody at h
  cases he : resp.err with
  | some e =>
    rw [he] at h
    simp only [Prod.mk.injEq] at h
    obtain ⟨rfl, rfl⟩ := h
    exact Or.inl ⟨⟨_, rfl⟩, by simp [batchSizes, he]⟩
  | none =>
    rw [he] at h
    simp only at h
    by_cases hc : last = 0 ∧ resp.Messages.length = 0
    · simp only [hc.1, hc.2, beq_self_eq_true, Bool.and_self, if_true, Prod.mk.injEq] at h
      obtain ⟨rfl, rfl⟩ := h
      exact Or.inr (Or.inl ⟨hc.1, rfl, by simp [batchSizes, he, hc.2]⟩)
    · have hc' : (last == 0 && resp.Messages.length == 0) = false := by
        rw [Bool.eq_false_iff]
        intro hh
        simp only [Bool.and_eq_true, beq_iff_eq] at hh
        exact hc hh
      rw [hc'] at h
      have hp := processBatch_batchSizes fifo rmin dest o poll resp.Messages 0
      rcases hb : processBatch fifo rmin dest o poll 0 resp.Messages with ⟨evb, _ | f⟩
      · rw [hb] at h hp
        simp only [Bool.false_eq_true, if_false, Prod.mk.injEq] at h
        obtain ⟨rfl, rfl⟩ := h
        refine Or.inr (Or.inr ⟨hc, ?_, Or.inr rfl⟩)
        simp only at hp
        simp [batchSizes, he, hp]
      · rw [hb] at h hp
        simp only [Bool.false_eq_true, if_false, Prod.mk.injEq] at h
        obtain ⟨rfl, rfl⟩ := h
        refine Or.inr (Or.inr ⟨hc, ?_, Or.inl ⟨_, rfl⟩⟩)
        simp only at hp
        simp [batchSizes, he, hp]

/-- A worker that returned cleanly received at least one batch. -/
theorem loop_returned_batchSizes_ne_nil (fifo : Bool) (rmin : ReceiveMessageInput)
    (dest : Option String) (o : Oracle) (last poll : Nat) (polls : List ReceiveResult)
    (h : (loop fifo rmin dest o last poll polls).outcome = .returned) :
    batchSizes (loop fifo rmin dest o last poll polls).trace ≠ [] := by
  cases polls with
  | nil => simp [loop] at h
  | cons r rest =>
    rcases hb : loopBody fifo rmin dest o last poll r with ⟨ev, st⟩
    have hs := loopBody_batchSizes _ _ _ _ _ _ _ _ _ hb
    cases st with
    | done out =>
      rw [loop_cons_done _ _ _ _ _ _ _ _ _ _ hb] at h ⊢
      simp only at h
      subst h
      rcases hs with ⟨⟨f, hf⟩, _⟩ | ⟨_, _, hs⟩ | ⟨_, hs, _⟩
      · cases hf
      · simp [hs]
      · simp [hs]
    | next n =>
      rw [loop_cons_next _ _ _ _ _ _ _ _ _ _ hb]
      rcases hs with ⟨⟨f, hf⟩, _⟩ | ⟨_, hf, _⟩ | ⟨_, hs, _⟩
      · cases hf
      · cases hf
      · simp [batchSizes_append, hs]

/-- The termination rule on the received batch sizes, for a loop entered with
any previous count: the loop returns having received `k + 1` batches exactly
when batch `k` and the count before it are both `0` for the first time. -/
theorem loop_returned_iff (fifo : Bool) (rmin : ReceiveMessageInput)
    (dest : Option String) (o : Oracle) (polls : List ReceiveResult) :
    ∀ (last poll k : Nat),
      ((loop fifo rmin dest o last poll polls).outcome = .returned
        ∧ (batchSizes (loop fifo rmin dest o last poll polls).trace).length = k + 1)
      ↔ ((batchSizes (loop fifo rmin dest o last poll polls).trace)[k]? = some 0
        ∧ (last :: batchSizes (loop fifo rmin dest o last poll polls).trace)[k]? = some 0
        ∧ ∀ j, j < k →
          ¬ ((batchSizes (loop fifo rmin dest o last poll polls).trace)[j]? = some 0
            ∧ (last :: batchSizes (loop fifo rmin dest o last poll polls).trace)[j]?
                = some 0)) := by
  induction polls with
  | nil => intro last poll k; simp [loop, batchSizes]
  | cons r rest ih =>
    intro last poll k
    rcases hb : loopBody fifo rmin dest o last poll r with ⟨ev, st⟩
    have hs := loopBody_batchSizes _ _ _ _ _ _ _ _ _ hb
    cases st with
    | done out =>
      rw [loop_cons_done _ _ _ _ _ _ _ _ _ _ hb]
      rcases hs with ⟨⟨f, hf⟩, hs⟩ | ⟨h0, hf, hs⟩ | ⟨hc, hs, ⟨f, hf⟩ | hf⟩
      · cases hf
        simp [hs]
      · cases hf
        subst h0
        cases k with
        | zero => simp [hs]
        | succ k => simp [hs]
      · cases hf
        cases k with
        | zero =>
          simp only [hs, List.getElem?_cons_zero, Option.some.injEq]
          constructor
          · rintro ⟨h, _⟩; cases h
          · rintro ⟨h1, h2, _⟩; exact absurd ⟨h2, by simpa using h1⟩ hc
        | succ k => simp [hs]
      · cases hf
    | next n =>
      rw [loop_cons_next _ _ _ _ _ _ _ _ _ _ hb]
      rcases hs with ⟨⟨f, hf⟩, _⟩ | ⟨_, hf, _⟩ | ⟨hc, hs, ⟨f, hf⟩ | hf⟩
      · cases hf
      · cases hf
      · cases hf
      · cases hf
        simp only [batchSizes_append, hs, List.singleton_append]
        cases k with
        | zero =>
          simp only [List.length_cons, Nat.zero_add, Nat.add_eq_right, List.length_eq_zero,
            List.getElem?_cons_zero, Option.some.injEq]
          constructor
          · rintro ⟨h1, h2⟩
            exact absurd h2 (loop_returned_batchSizes_ne_nil _ _ _ _ _ _ _ h1)
          · rintro ⟨h1, h2, _⟩; exact absurd ⟨h2, by simpa using h1⟩ hc
        | succ k =>
          simp only [List.length_cons, Nat.add_right_cancel_iff, List.getElem?_cons_succ]
          rw [ih]
          constructor
          · rintro ⟨h1, h2, h3⟩
            refine ⟨h1, h2, ?_⟩
            intro j hj
            cases j with
            | zero =>
              simp only [List.getElem?_cons_zero, Option.some.injEq]
              rintro ⟨h4, h5⟩; exact hc ⟨h5, by simpa using h4⟩
            | succ j =>
              simp only [List.getElem?_cons_succ]
              exact h3 j (by omega)
          · rintro ⟨h1, h2, h3⟩
            refine ⟨h1, h2, ?_⟩
            intro j hj
            have := h3 (j + 1) (by omega)
            simpa only [List.getElem?_cons_succ] using this

theorem sendsOf_append (a b : List Event) : sendsOf (a ++ b) = sendsOf a ++ sendsOf b := by
  induction a with
  | nil => rfl
  | cons e a ih => cases e <;> simp [sendsOf, ih]

theorem receivesOf_append (a b : List Event) :
    receivesOf (a ++ b) = receivesOf a ++ receivesOf b := by
  induction a with
  | nil => rfl
  | cons e a ih => cases e <;> simp [receivesOf, ih]

theorem receivedMessages_append (a b : List Event) :
    receivedMessages (a ++ b) = receivedMessages a ++ receivedMessages b := by
  induction a with
  | nil => rfl
  | cons e a ih =>
    cases e with
    | receive r resp => cases h : resp.err <;> simp [receivedMessages, h, ih]
    | send smi ok => simpa [receivedMessages] using ih
    | delete dmi ok => simpa [receivedMessages] using ih

/-! ### Runs in which no per-message unit panics -/

/-- A message with the attributes of its mode can be built. -/
theorem buildMessageInput_isOk (fifo : Bool) (m : Message) (dest : Option String)
    (h : hasModeAttributes fifo m = true) :
    ∃ smi, buildMessageInput fifo m dest = .ok smi := by
  cases fifo with
  | false => exact ⟨_, rfl⟩
  | true =>
    simp only [hasModeAttributes, Bool.not_true, Bool.false_or, Bool.and_eq_true] at h
    obtain ⟨hg, hd⟩ := h
    obtain ⟨g, hg⟩ := Option.isSome_iff_exists.mp hg
    obtain ⟨d, hd⟩ := Option.isSome_iff_exists.mp hd
    refine ⟨⟨m.MessageAttributes, m.Body, dest, some g, some d⟩, ?_⟩
    simp [buildMessageInput, buildFifoMessageInput, hg, hd, deref]

/-- The unit of a message with the attributes of its mode and a receipt
handle does not panic and makes exactly one send attempt. -/
theorem messageUnit_of_wellFormed (fifo : Bool) (rmin : ReceiveMessageInput)
    (dest : Option String) (m : Message) (sendOk deleteOk : Bool)
    (h : hasModeAttributes fifo m = true) (hr : m.ReceiptHandle.isSome = true) :
    (messageUnit fifo rmin dest m sendOk deleteOk).2 = none
    ∧ (sendsOf (messageUnit fifo rmin dest m sendOk deleteOk).1).map Except.ok
        = [buildMessageInput fifo m dest]
    ∧ receivesOf (messageUnit fifo rmin dest m sendOk deleteOk).1 = []
    ∧ receivedMessages (messageUnit fifo rmin dest m sendOk deleteOk).1 = [] := by
  obtain ⟨smi, hb⟩ := buildMessageInput_isOk fifo m dest h
  obtain ⟨rh, hrh⟩ := Option.isSome_iff_exists.mp hr
  unfold messageUnit
  rw [hb]
  cases sendOk <;> cases deleteOk <;>
    simp [sendsOf, receivesOf, receivedMessages, deref, hrh]

theorem processBatch_of_wellFormed (fifo : Bool) (rmin : ReceiveMessageInput)
    (dest : Option String) (o : Oracle) (poll : Nat) (ms : List Message)
    (h : ∀ m ∈ ms, hasModeAttributes fifo m = true ∧ m.ReceiptHandle.isSome = true) :
    ∀ j, (processBatch fifo rmin dest o poll j ms).2 = none
      ∧ (sendsOf (processBatch fifo rmin dest o poll j ms).1).map Except.ok
          = ms.map (fun m => buildMessageInput fifo m dest)
      ∧ receivesOf (processBatch fifo rmin dest o poll j ms).1 = []
      ∧ receivedMessages (processBatch fifo rmin dest o poll j ms).1 = [] := by
  induction ms with
  | nil => intro j; simp [processBatch, sendsOf, receivesOf, receivedMessages]
  | cons m ms ih =>
    intro j
    have hm := h m (List.mem_cons_self _ _)
    obtain ⟨h1, h2, h3, h4⟩ := messageUnit_of_wellFormed fifo rmin dest m
      (o.sendOk poll j) (o.deleteOk poll j) hm.1 hm.2
    obtain ⟨i1, i2, i3, i4⟩ := ih (fun m' hm' => h m' (List.mem_cons_of_mem _ hm')) (j + 1)
    unfold processBatch
    rcases hu : messageUnit fifo rmin dest m (o.sendOk poll j) (o.deleteOk poll j)
      with ⟨ev, _ | f⟩
    · rw [hu] at h2 h3 h4
      simp only at h2 h3 h4
      simp only [sendsOf_append, receivesOf_append, receivedMessages_append, List.map_append,
        List.map_cons, h2, h3, h4, i1, i2, i3, i4]
      simp
    · rw [hu] at h1
      cases h1

/-- One pass through the loop body on a successful poll of well-formed
messages: what is decided depends on the batch size only. -/
theorem loopBody_of_wellFormed (fifo : Bool) (rmin : ReceiveMessageInput)
    (dest : Option String) (o : Oracle) (last poll : Nat) (resp : ReceiveResult)
    (he : resp.err = none)
    (h : ∀ m ∈ resp.Messages, hasModeAttributes fifo m = true ∧ m.ReceiptHandle.isSome = true) :
    loopBody fifo rmin dest o last poll resp
      = if last == 0 && resp.Messages.length == 0 then
          ([.receive rmin resp], .done .returned)
        else
          (.receive rmin resp :: (processBatch fifo rmin dest o poll 0 resp.Messages).1,
            .next resp.Messages.length) := by
  have hp := (processBatch_of_wellFormed fifo rmin dest o poll resp.Messages h 0).1
  unfold loopBody
  rw [he]
  simp only
  split
  · rfl
  · rcases hb : processBatch fifo rmin dest o poll 0 resp.Messages with ⟨evb, _ | f⟩
    · rfl
    · rw [hb] at hp
      cases hp

/-- With well-formed polls, the outcome and the polls issued do not depend on
the outcome of the sends and deletes, and every received message gets exactly
one send attempt. -/
theorem loop_of_wellFormed (fifo : Bool) (rmin : ReceiveMessageInput)
    (dest : Option String) (o o' : Oracle) (polls : List ReceiveResult)
    (h : ∀ r ∈ polls, r.err = none
      ∧ ∀ m ∈ r.Messages, hasModeAttributes fifo m = true ∧ m.ReceiptHandle.isSome = true) :
    ∀ (last poll : Nat),
      (loop fifo rmin dest o last poll polls).outcome
          = (loop fifo rmin dest o' last poll polls).outcome
      ∧ receivesOf (loop fifo rmin dest o last poll polls).trace
          = receivesOf (loop fifo rmin dest o' last poll polls).trace
      ∧ (sendsOf (loop fifo rmin dest o last poll polls).trace).map Except.ok
          = (receivedMessages (loop fifo rmin dest o last poll polls).trace).map
              (fun m => buildMessageInput fifo m dest)
      ∧ ((loop fifo rmin dest o last poll polls).outcome = .returned
          ∨ (loop fifo rmin dest o last poll polls).outcome = .awaiting) := by
  induction polls with
  | nil => intro last poll; simp [loop, sendsOf, receivesOf, receivedMessages]
  | cons r rest ih =>
    intro last poll
    obtain ⟨he, hm⟩ := h r (List.mem_cons_self _ _)
    have hb := loopBody_of_wellFormed fifo rmin dest o last poll r he hm
    have hb' := loopBody_of_wellFormed fifo rmin dest o' last poll r he hm
    by_cases hc : (last == 0 && r.Messages.length == 0) = true
    · rw [if_pos hc] at hb hb'
      rw [loop_cons_done _ _ _ _ _ _ _ _ _ _ hb, loop_cons_done _ _ _ _ _ _ _ _ _ _ hb']
      simp only [Bool.and_eq_true, beq_iff_eq, List.length_eq_zero] at hc
      simp [sendsOf, receivesOf, receivedMessages, he, hc.2]
    · rw [if_neg hc] at hb hb'
      rw [loop_cons_next _ _ _ _ _ _ _ _ _ _ hb, loop_cons_next _ _ _ _ _ _ _ _ _ _ hb']
      obtain ⟨i1, i2, i3, i4⟩ :=
        ih (fun r' hr' => h r' (List.mem_cons_of_mem _ hr')) r.Messages.length (poll + 1)
      obtain ⟨-, p2, p3, p4⟩ := processBatch_of_wellFormed fifo rmin dest o poll r.Messages hm 0
      obtain ⟨-, -, q3, -⟩ := processBatch_of_wellFormed fifo rmin dest o' poll r.Messages hm 0
      refine ⟨i1, ?_, ?_, i4⟩
      · simp only [List.cons_append, receivesOf, List.append_eq, receivesOf_append, p3, q3, i2]
      · simp only [List.cons_append, sendsOf, receivedMessages, he, List.append_eq,
          sendsOf_append, receivedMessages_append, List.map_append, p2, p4, i3,
          List.nil_append]

/-- The stop condition of the specification is the loop's test with the
previous count started at `1`. -/
theorem firstEmptyPairAt_iff (s : List Nat) (k : Nat) :
    firstEmptyPairAt s k
      ↔ (s[k]? = some 0 ∧ (1 :: s)[k]? = some 0
          ∧ ∀ j, j < k → ¬ (s[j]? = some 0 ∧ (1 :: s)[j]? = some 0)) := by
  unfold firstEmptyPairAt
  cases k with
  | zero => simp
  | succ k =>
    simp only [Nat.le_add_left, true_and, Nat.add_sub_cancel, List.getElem?_cons_succ]
    constructor
    · rintro ⟨h1, h2, h3⟩
      refine ⟨h1, h2, ?_⟩
      intro j hj
      cases j with
      | zero => simp
      | succ j =>
        have := h3 (j + 1) hj (by omega)
        simpa using this
    · rintro ⟨h1, h2, h3⟩
      refine ⟨h1, h2, ?_⟩
      intro j hj hj1
      obtain ⟨i, rfl⟩ : ∃ i, j = i + 1 := ⟨j - 1, by omega⟩
      have := h3 (i + 1) hj
      simpa using this

/-- With well-formed polls the batch sizes received are an initial part of
the sizes in the script, and all of them when the worker is still running. -/
theorem loop_batchSizes_of_wellFormed (fifo : Bool) (rmin : ReceiveMessageInput)
    (dest : Option String) (o : Oracle) (polls : List ReceiveResult)
    (h : ∀ r ∈ polls, r.err = none
      ∧ ∀ m ∈ r.Messages, hasModeAttributes fifo m = true ∧ m.ReceiptHandle.isSome = true) :
    ∀ (last poll : Nat), ∃ t,
      polls.map (fun r => r.Messages.length)
          = batchSizes (loop fifo rmin dest o last poll polls).trace ++ t
      ∧ ((loop fifo rmin dest o last poll polls).outcome = .awaiting → t = []) := by
  induction polls with
  | nil => intro last poll; exact ⟨[], by simp [loop, batchSizes]⟩
  | cons r rest ih =>
    intro last poll
    obtain ⟨he, hm⟩ := h r (List.mem_cons_self _ _)
    have hb := loopBody_of_wellFormed fifo rmin dest o last poll r he hm
    by_cases hc : (last == 0 && r.Messages.length == 0) = true
    · rw [if_pos hc] at hb
      rw [loop_cons_done _ _ _ _ _ _ _ _ _ _ hb]
      exact ⟨rest.map (fun r => r.Messages.length), by simp [batchSizes, he], by simp⟩
    · rw [if_neg hc] at hb
      rw [loop_cons_next _ _ _ _ _ _ _ _ _ _ hb]
      obtain ⟨t, ht, ht'⟩ :=
        ih (fun r' hr' => h r' (List.mem_cons_of_mem _ hr')) r.Messages.length (poll + 1)
      refine ⟨t, ?_, ht'⟩
      have hp := processBatch_batchSizes fifo rmin dest o poll r.Messages 0
      simp only [List.map_cons, List.cons_append, batchSizes, he, List.append_eq,
        batchSizes_append, hp, List.nil_append, ht]

theorem wellFormed_of_flags (fifo : Bool) (polls : List ReceiveResult)
    (hwf : pollsWellFormed fifo polls = true) (hrh : pollsHaveReceiptHandles polls = true) :
    ∀ r ∈ polls, r.err = none
      ∧ ∀ m ∈ r.Messages, hasModeAttributes fifo m = true ∧ m.ReceiptHandle.isSome = true := by
  intro r hr
  simp only [pollsWellFormed, List.all_eq_true, Bool.and_eq_true, Option.isNone_iff_eq_none]
    at hwf
  simp only [pollsHaveReceiptHandles, List.all_eq_true] at hrh
  exact ⟨(hwf r hr).1, fun m hm => ⟨(hwf r hr).2 m hm, hrh r hr m hm⟩⟩

/-! ### The wait group of `main` -/

theorem wgCounter_append (a b : List MainEvent) :
    wgCounter (a ++ b) = wgCounter a + wgCounter b := by
  induction a with
  | nil => simp [wgCounter]
  | cons e a ih => cases e <;> simp [wgCounter, ih, Int.add_assoc]

theorem workersLaunched_append (a b : List MainEvent) :
    workersLaunched (a ++ b) = workersLaunched a + workersLaunched b := by
  induction a with
  | nil => simp [workersLaunched]
  | cons e a ih =>
    cases e <;> simp [workersLaunched, ih]
    omega

/-- The launch loop from `i` with exactly the passes it needs: it starts one
worker per pass and adds `i + (i + 1) + ... + clients` to the wait group. -/
theorem launchLoop_counts (c : Int) :
    ∀ (fuel : Nat) (i : Int), i + fuel = c + 1 →
      workersLaunched (launchLoop c fuel i) = fuel
      ∧ 2 * wgCounter (launchLoop c fuel i) = c * (c + 1) - (i - 1) * i := by
  intro fuel
  induction fuel with
  | zero =>
    intro i hi
    have : i = c + 1 := by simpa using hi
    subst this
    simp only [launchLoop, workersLaunched, wgCounter, true_and]
    ring
  | succ n ih =>
    intro i hi
    have hle : i ≤ c := by push_cast at hi; omega
    obtain ⟨h1, h2⟩ := ih (i + 1) (by push_cast at hi ⊢; omega)
    simp only [launchLoop, hle, if_true, workersLaunched, wgCounter, h1, true_and]
    have : 2 * (i + wgCounter (launchLoop c n (i + 1)))
        = 2 * i + 2 * wgCounter (launchLoop c n (i + 1)) := by ring
    rw [this, h2]
    ring

/-! ### Workers of one process -/

theorem set_eq_self_of_getElem? {α : Type} (l : List α) (i : Nat) (a : α)
    (h : l[i]? = some a) : l.set i a = l := by
  apply List.ext_getElem?
  intro j
  rw [List.getElem?_set]
  split
  · next hij =>
    subst hij
    have hlt : i < l.length := (List.getElem?_eq_some.mp h).1
    simp [hlt, h]
  · rfl

/-- A pass through the loop does not change the run the worker completes. -/
theorem Worker.final_step (fifo : Bool) (rmin : ReceiveMessageInput)
    (dest : Option String) (w : Worker) :
    (w.step fifo rmin dest).final fifo rmin dest = w.final fifo rmin dest := by
  obtain ⟨o, last, poll, pending, tr, out⟩ := w
  cases out with
  | returned => rfl
  | panicked f => rfl
  | awaiting =>
    cases pending with
    | nil => rfl
    | cons resp rest =>
      rcases hb : loopBody fifo rmin dest o last poll resp with ⟨ev, st⟩
      cases st with
      | done out =>
        have hne : out ≠ .awaiting := by
          rintro rfl
          exact loopBody_ne_done_awaiting _ _ _ _ _ _ _ _ hb
        cases out with
        | awaiting => exact absurd rfl hne
        | returned =>
          simp only [Worker.step, hb, Worker.final, loop_cons_done _ _ _ _ _ _ _ _ _ _ hb]
        | panicked f =>
          simp only [Worker.step, hb, Worker.final, loop_cons_done _ _ _ _ _ _ _ _ _ _ hb]
      | next n =>
        simp only [Worker.step, hb, Worker.final, loop_cons_next _ _ _ _ _ _ _ _ _ _ hb,
          List.append_assoc]

theorem Worker.final_start (fifo : Bool) (rmin : ReceiveMessageInput)
    (dest : Option String) (env : Oracle × List ReceiveResult) :
    (Worker.start env).final fifo rmin dest = transferMessages rmin dest fifo env.1 env.2 := by
  simp [Worker.start, Worker.final, transferMessages]

/-- What a worker has done is an initial part of the run it completes; a
worker that has ended has completed it. -/
theorem Worker.trace_initial_of_final (fifo : Bool) (rmin : ReceiveMessageInput)
    (dest : Option String) (w : Worker) :
    w.trace <+: (w.final fifo rmin dest).trace
    ∧ (w.outcome ≠ .awaiting → (⟨w.trace, w.outcome⟩ : Run) = w.final fifo rmin dest) := by
  obtain ⟨o, last, poll, pending, tr, out⟩ := w
  cases out with
  | awaiting => exact ⟨by simp [Worker.final], fun h => absurd rfl h⟩
  | returned => exact ⟨by simp [Worker.final], fun _ => rfl⟩
  | panicked f => exact ⟨by simp [Worker.final], fun _ => rfl⟩

theorem Process.step_final (fifo : Bool) (rmin : ReceiveMessageInput)
    (dest : Option String) (p : Process) (i : Nat) :
    (p.step fifo rmin dest i).workers.map (Worker.final fifo rmin dest)
      = p.workers.map (Worker.final fifo rmin dest) := by
  unfold Process.step
  split
  · rfl
  · split
    · rfl
    · next w hw =>
      simp only [List.map_set, Worker.final_step]
      exact set_eq_self_of_getElem? _ _ _ (by simp [hw])

theorem Process.run_final (fifo : Bool) (rmin : ReceiveMessageInput)
    (dest : Option String) (schedule : List Nat) :
    ∀ p : Process, (p.run fifo rmin dest schedule).workers.map (Worker.final fifo rmin dest)
      = p.workers.map (Worker.final fifo rmin dest) := by
  induction schedule with
  | nil => intro p; rfl
  | cons i rest ih =>
    intro p
    simp only [Process.run, List.foldl_cons] at ih ⊢
    rw [ih, Process.step_final]

/-- Nothing runs after a panic. -/
theorem Process.run_of_crashed (fifo : Bool) (rmin : ReceiveMessageInput)
    (dest : Option String) (schedule : List Nat) :
    ∀ p : Process, p.crashed = true → p.run fifo rmin dest schedule = p := by
  induction schedule with
  | nil => intro p _; rfl
  | cons i rest ih =>
    intro p hp
    have hs : p.step fifo rmin dest i = p := by simp [Process.step, hp]
    simp only [Process.run, List.foldl_cons] at ih ⊢
    rw [hs]
    exact ih p hp

theorem Process.step_crashed_iff (fifo : Bool) (rmin : ReceiveMessageInput)
    (dest : Option String) (p : Process) (i : Nat)
    (h : p.crashed = true ↔ ∃ w ∈ p.workers, w.outcome.isPanicked = true) :
    (p.step fifo rmin dest i).crashed = true
      ↔ ∃ w ∈ (p.step fifo rmin dest i).workers, w.outcome.isPanicked = true := by
  unfold Process.step
  split
  · exact h
  · next hc =>
    split
    · exact h
    · next w hw =>
      have hlt : i < p.workers.length := (List.getElem?_eq_some.mp hw).1
      constructor
      · intro hp
        exact ⟨_, List.mem_set _ _ hlt _, hp⟩
      · rintro ⟨x, hx, hxp⟩
        rcases List.mem_or_eq_of_mem_set hx with hmem | rfl
        · exact absurd (h.mpr ⟨x, hmem, hxp⟩) hc
        · exact hxp

theorem Process.run_crashed_iff (fifo : Bool) (rmin : ReceiveMessageInput)
    (dest : Option String) (schedule : List Nat) :
    ∀ p : Process, (p.crashed = true ↔ ∃ w ∈ p.workers, w.outcome.isPanicked = true) →
      ((p.run fifo rmin dest schedule).crashed = true
        ↔ ∃ w ∈ (p.run fifo rmin dest schedule).workers, w.outcome.isPanicked = true) := by
  induction schedule with
  | nil => intro p h; exact h
  | cons i rest ih =>
    intro p h
    simp only [Process.run, List.foldl_cons] at ih ⊢
    exact ih _ (Process.step_crashed_iff fifo rmin dest p i h)

/-! ### The sends of a FIFO worker -/

theorem buildFifoMessageInput_ids (m : Message) (dest : Option String)
    (smi : SendMessageInput) (h : buildFifoMessageInput m dest = .ok smi) :
    smi.MessageGroupId.isSome = true ∧ smi.MessageDeduplicationId.isSome = true := by
  unfold buildFifoMessageInput at h
  cases hg : m.Attributes.index "MessageGroupId" with
  | none => simp [hg, deref] at h
  | some g =>
    cases hd : m.Attributes.index "MessageDeduplicationId" with
    | none => simp [hg, hd, deref] at h
    | some d =>
      simp only [hg, hd, deref, Except.ok.injEq] at h
      subst h
      exact ⟨rfl, rfl⟩

theorem messageUnit_fifo_sends (rmin : ReceiveMessageInput) (dest : Option String)
    (m : Message) (sendOk deleteOk : Bool) (smi : SendMessageInput)
    (h : smi ∈ sendsOf (messageUnit true rmin dest m sendOk deleteOk).1) :
    smi.MessageGroupId.isSome = true ∧ smi.MessageDeduplicationId.isSome = true := by
  unfold messageUnit at h
  cases hb : buildMessageInput true m dest with
  | error f => simp [hb, sendsOf] at h
  | ok smi' =>
    have hids := buildFifoMessageInput_ids m dest smi' (by simpa [buildMessageInput] using hb)
    rw [hb] at h
    cases sendOk <;> cases deleteOk <;> cases hr : m.ReceiptHandle <;>
      simp [sendsOf, deref, hr] at h <;> (subst h; exact hids)

theorem processBatch_fifo_sends (rmin : ReceiveMessageInput) (dest : Option String)
    (o : Oracle) (poll : Nat) (ms : List Message) :
    ∀ j, ∀ smi ∈ sendsOf (processBatch true rmin dest o poll j ms).1,
      smi.MessageGroupId.isSome = true ∧ smi.MessageDeduplicationId.isSome = true := by
  induction ms with
  | nil => intro j smi h; simp [processBatch, sendsOf] at h
  | cons m ms ih =>
    intro j smi h
    have hu := messageUnit_fifo_sends rmin dest m (o.sendOk poll j) (o.deleteOk poll j) smi
    unfold processBatch at h
    rcases hm : messageUnit true rmin dest m (o.sendOk poll j) (o.deleteOk poll j)
      with ⟨ev, _ | f⟩
    · rw [hm] at h hu
      simp only [sendsOf_append, List.mem_append] at h
      rcases h with h | h
      · exact hu h
      · exact ih (j + 1) smi h
    · rw [hm] at h hu
      exact hu h

theorem loopBody_fifo_sends (rmin : ReceiveMessageInput) (dest : Option String)
    (o : Oracle) (last poll : Nat) (resp : ReceiveResult) :
    ∀ smi ∈ sendsOf (loopBody true rmin dest o last poll resp).1,
      smi.MessageGroupId.isSome = true ∧ smi.MessageDeduplicationId.isSome = true := by
  intro smi h
  have hp := processBatch_fifo_sends rmin dest o poll resp.Messages 0 smi
  unfold loopBody at h
  cases he : resp.err with
  | some e => simp [he, sendsOf] at h
  | none =>
    rw [he] at h
    simp only at h
    split at h
    · simp [sendsOf] at h
    · rcases hb : processBatch true rmin dest o poll 0 resp.Messages with ⟨evb, _ | f⟩
      · rw [hb] at h hp
        exact hp (by simpa [sendsOf] using h)
      · rw [hb] at h hp
        exact hp (by simpa [sendsOf] using h)

theorem loop_fifo_sends (rmin : ReceiveMessageInput) (dest : Option String)
    (o : Oracle) (polls : List ReceiveResult) :
    ∀ (last poll : Nat), ∀ smi ∈ sendsOf (loop true rmin dest o last poll polls).trace,
      smi.MessageGroupId.isSome = true ∧ smi.MessageDeduplicationId.isSome = true := by
  induction polls with
  | nil => intro last poll smi h; simp [loop, sendsOf] at h
  | cons r rest ih =>
    intro last poll smi h
    have hbody := loopBody_fifo_sends rmin dest o last poll r smi
    rcases hb : loopBody true rmin dest o last poll r with ⟨ev, st⟩
    rw [hb] at hbody
    cases st with
    | done out =>
      rw [loop_cons_done _ _ _ _ _ _ _ _ _ _ hb] at h
      exact hbody h
    | next n =>
      rw [loop_cons_next _ _ _ _ _ _ _ _ _ _ hb] at h
      simp only [sendsOf_append, List.mem_append] at h
      rcases h with h | h
      · exact hbody h
      · exact ih n (poll + 1) smi h

/-! ### The calls of a worker, poll by poll -/

theorem messageUnit_receivesOf (fifo : Bool) (rmin : ReceiveMessageInput)
    (dest : Option String) (m : Message) (sendOk deleteOk : Bool) :
    receivesOf (messageUnit fifo rmin dest m sendOk deleteOk).1 = [] := by
  unfold messageUnit
  cases buildMessageInput fifo m dest with
  | error f => rfl
  | ok smi =>
    cases sendOk <;> cases deleteOk <;> cases m.ReceiptHandle <;> simp [receivesOf, deref]

theorem processBatch_receivesOf (fifo : Bool) (rmin : ReceiveMessageInput)
    (dest : Option String) (o : Oracle) (poll : Nat) (ms : List Message) :
    ∀ j, receivesOf (processBatch fifo rmin dest o poll j ms).1 = [] := by
  induction ms with
  | nil => intro j; rfl
  | cons m ms ih =>
    intro j
    have hu := messageUnit_receivesOf fifo rmin dest m (o.sendOk poll j) (o.deleteOk poll j)
    unfold processBatch
    rcases hm : messageUnit fifo rmin dest m (o.sendOk poll j) (o.deleteOk poll j)
      with ⟨ev, _ | f⟩
    · rw [hm] at hu
      simp only [receivesOf_append, ih]
      simpa using hu
    · rw [hm] at hu
      simpa using hu

/-- The calls of a batch are the calls of the units of its first `n`
messages, in order; all of them unless a unit panicked. -/
theorem processBatch_unitCalls (fifo : Bool) (rmin : ReceiveMessageInput)
    (dest : Option String) (o : Oracle) (poll : Nat) (ms : List Message) :
    ∀ j, ∃ n, n ≤ ms.length
      ∧ (processBatch fifo rmin dest o poll j ms).1
          = unitCalls fifo rmin dest o poll ((ms.enumFrom j).take n)
      ∧ ((processBatch fifo rmin dest o poll j ms).2 = none → n = ms.length) := by
  induction ms with
  | nil => intro j; exact ⟨0, Nat.le_refl _, rfl, fun _ => rfl⟩
  | cons m ms ih =>
    intro j
    unfold processBatch
    rcases hm : messageUnit fifo rmin dest m (o.sendOk poll j) (o.deleteOk poll j)
      with ⟨ev, _ | f⟩
    · obtain ⟨n, hn, hcalls, hall⟩ := ih (j + 1)
      refine ⟨n + 1, by simp only [List.length_cons]; omega, ?_, ?_⟩
      · simp only [List.enumFrom_cons, List.take_succ_cons, unitCalls, hm, hcalls]
      · intro h
        simp only [List.length_cons, Nat.add_right_cancel_iff]
        exact hall h
    · refine ⟨1, by simp only [List.length_cons]; omega, ?_, ?_⟩
      · simp only [List.enumFrom_cons, List.take_succ_cons, List.take_zero, unitCalls, hm,
          List.append_nil]
      · intro h
        cases h

/-- The ways a pass through the loop body can go, with the calls it makes. -/
theorem loopBody_shape (fifo : Bool) (rmin : ReceiveMessageInput)
    (dest : Option String) (o : Oracle) (last poll : Nat) (resp : ReceiveResult) :
    (∃ e, resp.err = some e
        ∧ loopBody fifo rmin dest o last poll resp
          = ([.receive rmin resp], .done (.panicked (.receiveError e))))
    ∨ (resp.err = none ∧ resp.Messages = []
        ∧ loopBody fifo rmin dest o last poll resp = ([.receive rmin resp], .done .returned))
    ∨ (resp.err = none
        ∧ ∃ f, (processBatch fifo rmin dest o poll 0 resp.Messages).2 = some f
          ∧ loopBody fifo rmin dest o last poll resp
            = (.receive rmin resp :: (processBatch fifo rmin dest o poll 0 resp.Messages).1,
                .done (.panicked f)))
    ∨ (resp.err = none
        ∧ (processBatch fifo rmin dest o poll 0 resp.Messages).2 = none
        ∧ loopBody fifo rmin dest o last poll resp
          = (.receive rmin resp :: (processBatch fifo rmin dest o poll 0 resp.Messages).1,
              .next resp.Messages.length)) := by
  unfold loopBody
  cases he : resp.err with
  | some e => exact Or.inl ⟨e, rfl, rfl⟩
  | none =>
    right
    simp only
    by_cases hc : (last == 0 && resp.Messages.length == 0) = true
    · left
      rw [if_pos hc]
      simp only [Bool.and_eq_true, beq_iff_eq, List.length_eq_zero] at hc
      exact ⟨trivial, hc.2, rfl⟩
    · right
      rw [if_neg hc]
      rcases hb : processBatch fifo rmin dest o poll 0 resp.Messages with ⟨evb, _ | f⟩
      · exact Or.inr ⟨trivial, rfl, rfl⟩
      · exact Or.inl ⟨trivial, f, rfl, rfl⟩

/-- The calls of a loop start with a poll. -/
theorem loop_trace_head (fifo : Bool) (rmin : ReceiveMessageInput)
    (dest : Option String) (o : Oracle) (last poll : Nat) (polls : List ReceiveResult) :
    (loop fifo rmin dest o last poll polls).trace = []
    ∨ ∃ r, (loop fifo rmin dest o last poll polls).trace.head? = some (.receive rmin r) := by
  cases polls with
  | nil => exact Or.inl rfl
  | cons r rest =>
    right
    refine ⟨r, ?_⟩
    rcases loopBody_shape fifo rmin dest o last poll r with
      ⟨e, -, hb⟩ | ⟨-, -, hb⟩ | ⟨-, f, -, hb⟩ | ⟨-, -, hb⟩
    · rw [loop_cons_done _ _ _ _ _ _ _ _ _ _ hb]; rfl
    · rw [loop_cons_done _ _ _ _ _ _ _ _ _ _ hb]; rfl
    · rw [loop_cons_done _ _ _ _ _ _ _ _ _ _ hb]; rfl
    · rw [loop_cons_next _ _ _ _ _ _ _ _ _ _ hb]; rfl

/-- Every successful poll of a loop is followed in its trace by the calls of
the units of the batch it returned, and by nothing else before the next
poll. -/
theorem loop_unitCalls (fifo : Bool) (rmin : ReceiveMessageInput)
    (dest : Option String) (o : Oracle) (polls : List ReceiveResult) :
    ∀ (last poll k : Nat) (resp : ReceiveResult),
      (receivesOf (loop fifo rmin dest o last poll polls).trace)[k]? = some resp →
      resp.err = none →
      ∃ (pre post : List Event) (n : Nat),
        (loop fifo rmin dest o last poll polls).trace
            = pre ++ (.receive rmin resp
                :: (unitCalls fifo rmin dest o (poll + k) ((resp.Messages.enum).take n)
                    ++ post))
        ∧ (receivesOf pre).length = k
        ∧ n ≤ resp.Messages.length
        ∧ ((post ≠ [] ∨ (loop fifo rmin dest o last poll polls).outcome.isPanicked = false) →
            n = resp.Messages.length)
        ∧ (post = [] ∨ ∃ r, post.head? = some (.receive rmin r)) := by
  induction polls with
  | nil =>
    intro last poll k resp h
    simp [loop, receivesOf] at h
  | cons r rest ih =>
    intro last poll k resp h herr
    have hpr := processBatch_receivesOf fifo rmin dest o poll r.Messages 0
    obtain ⟨n, hn, hcalls, hall⟩ := processBatch_unitCalls fifo rmin dest o poll r.Messages 0
    rcases loopBody_shape fifo rmin dest o last poll r with
      ⟨e, he, hb⟩ | ⟨-, hnil, hb⟩ | ⟨-, f, hf, hb⟩ | ⟨-, hnone, hb⟩
    · rw [loop_cons_done _ _ _ _ _ _ _ _ _ _ hb] at h
      cases k with
      | zero =>
        simp only [receivesOf, List.getElem?_cons_zero, Option.some.injEq] at h
        subst h
        rw [he] at herr
        cases herr
      | succ k => simp [receivesOf] at h
    · rw [loop_cons_done _ _ _ _ _ _ _ _ _ _ hb] at h ⊢
      cases k with
      | zero =>
        simp only [receivesOf, List.getElem?_cons_zero, Option.some.injEq] at h
        subst h
        refine ⟨[], [], 0, ?_, rfl, Nat.zero_le _, ?_, Or.inl rfl⟩
        · simp [unitCalls]
        · intro _; simp [hnil]
      | succ k => simp [receivesOf] at h
    · rw [loop_cons_done _ _ _ _ _ _ _ _ _ _ hb] at h ⊢
      cases k with
      | zero =>
        simp only [receivesOf, List.getElem?_cons_zero, Option.some.injEq] at h
        subst h
        refine ⟨[], [], n, ?_, rfl, hn, ?_, Or.inl rfl⟩
        · simp only [List.nil_append, List.append_nil, Nat.add_zero, List.enum, hcalls]
        · rintro (h | h)
          · exact absurd rfl h
          · simp [Outcome.isPanicked] at h
      | succ k => simp [receivesOf, hpr] at h
    · rw [loop_cons_next _ _ _ _ _ _ _ _ _ _ hb] at h ⊢
      simp only [List.cons_append, receivesOf, List.append_eq, receivesOf_append, hpr,
        List.nil_append] at h
      cases k with
      | zero =>
        simp only [List.getElem?_cons_zero, Option.some.injEq] at h
        subst h
        refine ⟨[], (loop fifo rmin dest o r.Messages.length (poll + 1) rest).trace,
          r.Messages.length, ?_, rfl, Nat.le_refl _, fun _ => rfl,
          loop_trace_head fifo rmin dest o _ _ rest⟩
        have hn' := hall hnone
        subst hn'
        simp only [List.nil_append, List.cons_append, Nat.add_zero, List.enum, hcalls]
      | succ k =>
        simp only [List.getElem?_cons_succ] at h
        obtain ⟨pre, post, n', htr, hlen, hn', hall', hhead⟩ :=
          ih r.Messages.length (poll + 1) k resp h herr
        refine ⟨.receive rmin r :: ((processBatch fifo rmin dest o poll 0 r.Messages).1 ++ pre),
          post, n', ?_, ?_, hn', hall', hhead⟩
        · rw [htr]
          simp only [List.cons_append, List.append_assoc, Nat.add_assoc, Nat.add_comm 1 k]
        · simp only [receivesOf, receivesOf_append, hpr, List.nil_append, List.length_cons,
            hlen]

/-- One per-message unit, for any outcome of its send and delete calls: at
most one send; after a send that reported success exactly one delete, right
after it, with the message's receipt handle and the queue url of the receive
request; after a send that reported failure no delete; no send, no call. -/
theorem messageUnit_delete_iff (fifo : Bool) (rmin : ReceiveMessageInput)
    (dest : Option String) (m : Message) (sendOk deleteOk : Bool) :
    (∀ smi, buildMessageInput fifo m dest = .ok smi →
        sendsOf (messageUnit fifo rmin dest m sendOk deleteOk).1 = [smi]
        ∧ sendOutcomes (messageUnit fifo rmin dest m sendOk deleteOk).1 = [sendOk])
    ∧ (sendOutcomes (messageUnit fifo rmin dest m sendOk deleteOk).1 = [true] →
        (deletesOf (messageUnit fifo rmin dest m sendOk deleteOk).1).length = 1
        ∧ ∃ smi, (messageUnit fifo rmin dest m sendOk deleteOk).1
            = [.send smi true, .delete ⟨rmin.QueueUrl, m.ReceiptHandle⟩ deleteOk])
    ∧ (sendOutcomes (messageUnit fifo rmin dest m sendOk deleteOk).1 = [false] →
        (deletesOf (messageUnit fifo rmin dest m sendOk deleteOk).1).length = 0)
    ∧ (sendOutcomes (messageUnit fifo rmin dest m sendOk deleteOk).1 = [] →
        (messageUnit fifo rmin dest m sendOk deleteOk).1 = [])
    ∧ (sendOutcomes (messageUnit fifo rmin dest m sendOk deleteOk).1).length ≤ 1 := by
  unfold messageUnit
  cases hb : buildMessageInput fifo m dest with
  | error f => simp [sendsOf, sendOutcomes, deletesOf]
  | ok smi =>
    cases sendOk <;> cases deleteOk <;> cases hr : m.ReceiptHandle <;>
      simp [sendsOf, sendOutcomes, deletesOf, deref]

/-- C6: for every message with custom attributes `A` and body `B`, whatever
its system attributes and receipt handle, and every destination `d`,
`buildStandardMessageInput` returns the outbound message with attributes `A`,
body `B`, destination `d` and with group id and deduplication id absent; it
is what the worker sends in standard mode. -/
theorem c6_standard_input (attrs : AttrMap) (A : MessageAttributeMap)
    (B rh d : Option String) :
    buildStandardMessageInput ⟨attrs, A, B, rh⟩ d
        = { MessageAttributes := A, MessageBody := B, QueueUrl := d,
            MessageGroupId := none, MessageDeduplicationId := none }
      ∧ (buildStandardMessageInput ⟨attrs, A, B, rh⟩ d).MessageGroupId = none
      ∧ (buildStandardMessageInput ⟨attrs, A, B, rh⟩ d).MessageDeduplicationId = none
      ∧ buildMessageInput false ⟨attrs, A, B, rh⟩ d
        = .ok (buildStandardMessageInput ⟨attrs, A, B, rh⟩ d) := by
  refine ⟨rfl, rfl, rfl, rfl⟩

/-- C5: for every message whose system attributes hold group id `G` and
deduplication id `D`, with custom attributes `A` and body `B`, and every
destination `d`, `buildFifoMessageInput` returns (without fault) the outbound
message with group id `G`, deduplication id `D`, attributes `A`, body `B` and
destination `d`. -/
theorem c5_fifo_input (attrs : AttrMap) (A : MessageAttributeMap)
    (B rh d : Option String) (G D : String)
    (hG : attrs.index "MessageGroupId" = some G)
    (hD : attrs.index "MessageDeduplicationId" = some D) :
    buildFifoMessageInput ⟨attrs, A, B, rh⟩ d
      = .ok { MessageAttributes := A, MessageBody := B, QueueUrl := d,
              MessageGroupId := some G, MessageDeduplicationId := some D } := by
  simp [buildFifoMessageInput, hG, hD, deref]

/-- Witness of C5 at the example FIFO message. -/
theorem c5_fifo_input_witness :
    buildFifoMessageInput exFifoMessage (some "dest-url")
      = .ok { MessageAttributes := [("k", "v")], MessageBody := some "x",
              QueueUrl := some "dest-url",
              MessageGroupId := some "G1", MessageDeduplicationId := some "D1" } :=
  c5_fifo_input _ [("k", "v")] (some "x") (some "rh-1") (some "dest-url") "G1" "D1"
    (by decide) (by decide)

/-- C1: in every run of `transferMessages` (any script of poll responses,
mode and outcome of the sends and deletes), for every successful poll `p` and
the batch `resp` it returned: the calls the worker makes between that poll
and its next poll are exactly the calls of the per-message units of the
first `n` messages of the batch, one unit per received message instance, and
`n` is the whole batch unless the worker panicked inside this batch.  For
each such instance (position `j`, message `m`) the unit issues at most one
send; if the send reported success it issues exactly one delete, right after
the send, carrying `m`'s own receipt handle and the queue url of the receive
request; if the send reported failure it issues no delete; and a unit that
issued no send issued no call at all. -/
theorem c1_delete_iff_send_succeeded (rmin : ReceiveMessageInput) (dest : Option String)
    (fifo : Bool) (o : Oracle) (polls : List ReceiveResult) (p : Nat) (resp : ReceiveResult)
    (hrecv : (receivesOf (transferMessages rmin dest fifo o polls).trace)[p]? = some resp)
    (hok : resp.err = none) :
    ∃ (pre post : List Event) (n : Nat),
      (transferMessages rmin dest fifo o polls).trace
          = pre ++ (.receive rmin resp
              :: (unitCalls fifo rmin dest o p ((resp.Messages.enum).take n) ++ post))
      ∧ (receivesOf pre).length = p
      ∧ n ≤ resp.Messages.length
      ∧ ((post ≠ [] ∨ (transferMessages rmin dest fifo o polls).outcome.isPanicked = false) →
          n = resp.Messages.length)
      ∧ (post = [] ∨ ∃ r, post.head? = some (.receive rmin r))
      ∧ ∀ (j : Nat) (m : Message), (j, m) ∈ (resp.Messages.enum).take n →
          (∀ smi, buildMessageInput fifo m dest = .ok smi →
              sendsOf (messageUnit fifo rmin dest m (o.sendOk p j) (o.deleteOk p j)).1 = [smi]
              ∧ sendOutcomes (messageUnit fifo rmin dest m (o.sendOk p j) (o.deleteOk p j)).1
                  = [o.sendOk p j])
          ∧ (sendOutcomes (messageUnit fifo rmin dest m (o.sendOk p j) (o.deleteOk p j)).1
                = [true] →
              (deletesOf (messageUnit fifo rmin dest m (o.sendOk p j)
                (o.deleteOk p j)).1).length = 1
              ∧ ∃ smi, (messageUnit fifo rmin dest m (o.sendOk p j) (o.deleteOk p j)).1
                  = [.send smi true,
                      .delete ⟨rmin.QueueUrl, m.ReceiptHandle⟩ (o.deleteOk p j)])
          ∧ (sendOutcomes (messageUnit fifo rmin dest m (o.sendOk p j) (o.deleteOk p j)).1
                = [false] →
              (deletesOf (messageUnit fifo rmin dest m (o.sendOk p j)
                (o.deleteOk p j)).1).length = 0)
          ∧ (sendOutcomes (messageUnit fifo rmin dest m (o.sendOk p j) (o.deleteOk p j)).1
                = [] →
              (messageUnit fifo rmin dest m (o.sendOk p j) (o.deleteOk p j)).1 = [])
          ∧ (sendOutcomes (messageUnit fifo rmin dest m (o.sendOk p j)
              (o.deleteOk p j)).1).length ≤ 1 := by
  obtain ⟨pre, post, n, htr, hlen, hn, hall, hhead⟩ :=
    loop_unitCalls fifo rmin dest o polls 1 0 p resp hrecv hok
  rw [Nat.zero_add] at htr
  exact ⟨pre, post, n, htr, hlen, hn, hall, hhead,
    fun j m _ => messageUnit_delete_iff fifo rmin dest m (o.sendOk p j) (o.deleteOk p j)⟩

/-- Witness of C1: the worker offered one message and then two empty batches,
with every send and delete succeeding, polls, sends the message, deletes it
with its receipt handle from the source queue, and polls twice more. -/
theorem c1_delete_iff_send_succeeded_witness :
    (transferMessages (mkReceiveInput "src-url") (some "dest-url") false
        Oracle.allSucceed exPolls).trace
      = [.receive (mkReceiveInput "src-url") ⟨[exFifoMessage], none⟩,
          .send ⟨[("k", "v")], some "x", some "dest-url", none, none⟩ true,
          .delete ⟨some "src-url", some "rh-1"⟩ true,
          .receive (mkReceiveInput "src-url") ⟨[], none⟩,
          .receive (mkReceiveInput "src-url") ⟨[], none⟩]
    ∧ ∃ (pre post : List Event) (n : Nat),
      (transferMessages (mkReceiveInput "src-url") (some "dest-url") false
          Oracle.allSucceed exPolls).trace
        = pre ++ (.receive (mkReceiveInput "src-url") ⟨[exFifoMessage], none⟩
            :: (unitCalls false (mkReceiveInput "src-url") (some "dest-url")
                  Oracle.allSucceed 0 (([exFifoMessage].enum).take n) ++ post))
      ∧ n = 1 :=
  ⟨by decide,
    match c1_delete_iff_send_succeeded (mkReceiveInput "src-url") (some "dest-url") false
      Oracle.allSucceed exPolls 0 ⟨[exFifoMessage], none⟩ (by decide) rfl with
    | ⟨pre, post, n, htr, _, _, hall, _, _⟩ => ⟨pre, post, n, htr, hall (Or.inr (by decide))⟩⟩

/-- C4: in FIFO mode, a message whose system attributes lack the group id or
lack the deduplication id makes `buildFifoMessageInput` fault (nil pointer
dereference) instead of returning an outbound message, and the per-message
unit then issues no call: no send and no delete.  Hence every send a FIFO
worker ever issues carries both a group id and a deduplication id. -/
theorem c4_fifo_missing_id_faults (rmin : ReceiveMessageInput) (dest : Option String)
    (m : Message) (sendOk deleteOk : Bool)
    (h : m.Attributes.index "MessageGroupId" = none
      ∨ m.Attributes.index "MessageDeduplicationId" = none) :
    buildFifoMessageInput m dest = .error .nilDereference
    ∧ messageUnit true rmin dest m sendOk deleteOk = ([], some .nilDereference)
    ∧ sendsOf (messageUnit true rmin dest m sendOk deleteOk).1 = []
    ∧ deletesOf (messageUnit true rmin dest m sendOk deleteOk).1 = []
    ∧ ∀ (o : Oracle) (polls : List ReceiveResult),
        ∀ smi ∈ sendsOf (transferMessages rmin dest true o polls).trace,
          smi.MessageGroupId.isSome = true ∧ smi.MessageDeduplicationId.isSome = true := by
  have hb : buildFifoMessageInput m dest = .error .nilDereference := by
    unfold buildFifoMessageInput
    rcases h with h | h
    · simp [h, deref]
    · cases hg : m.Attributes.index "MessageGroupId" <;> simp [h, deref]
  have hu : messageUnit true rmin dest m sendOk deleteOk = ([], some .nilDereference) := by
    simp [messageUnit, buildMessageInput, hb]
  refine ⟨hb, hu, ?_, ?_, ?_⟩
  · simp [hu, sendsOf]
  · simp [hu, deletesOf]
  · intro o polls smi hs
    exact loop_fifo_sends rmin dest o polls 1 0 smi hs

/-- Witness of C4 at a message with a group id and no deduplication id. -/
theorem c4_fifo_missing_id_faults_witness :
    buildFifoMessageInput exNoDedupMessage (some "dest-url") = .error .nilDereference
    ∧ messageUnit true (mkReceiveInput "src-url") (some "dest-url") exNoDedupMessage true true
        = ([], some .nilDereference) :=
  have h := c4_fifo_missing_id_faults (mkReceiveInput "src-url") (some "dest-url")
    exNoDedupMessage true true (Or.inr (by decide))
  ⟨h.1, h.2.1⟩

/-- C7: a poll whose receive call returns an error ends the worker with a
panic at that poll, whatever the previous batch size and whatever the
response carries: the call is the last call of the worker (no retry, no
further poll, no send and no delete for that response). -/
theorem c7_receive_error_is_fatal (rmin : ReceiveMessageInput) (dest : Option String)
    (fifo : Bool) (o : Oracle) (pre rest : List ReceiveResult) (resp : ReceiveResult)
    (e : String)
    (hreach : (transferMessages rmin dest fifo o pre).outcome = .awaiting)
    (herr : resp.err = some e) :
    transferMessages rmin dest fifo o (pre ++ resp :: rest)
        = ⟨(transferMessages rmin dest fifo o pre).trace ++ [.receive rmin resp],
            .panicked (.receiveError e)⟩
    ∧ ∀ lastMessageCount poll,
        loop fifo rmin dest o lastMessageCount poll (resp :: rest)
          = ⟨[.receive rmin resp], .panicked (.receiveError e)⟩ := by
  have hloop : ∀ lastMessageCount poll,
      loop fifo rmin dest o lastMessageCount poll (resp :: rest)
        = ⟨[.receive rmin resp], .panicked (.receiveError e)⟩ := fun last poll =>
    loop_cons_done _ _ _ _ _ _ _ _ _ _ (loopBody_of_err _ _ _ _ _ _ _ _ herr)
  refine ⟨?_, hloop⟩
  obtain ⟨n, hn⟩ := loop_append_of_awaiting fifo rmin dest o pre (resp :: rest) 1 0 hreach
  simp only [transferMessages]
  rw [hn, hloop]

/-- C2: the worker stops cleanly at poll `k` (polls numbered from `0`, so it
has received `k + 1` batches) if and only if batch `k` and batch `k - 1` both
have size `0` and `k` is the first such index.  First part: on the batch
sizes the worker's polls returned, for every script, mode and outcome of sends
and deletes.  Second part: on the batch sizes of the script itself, when
every poll succeeds and no per-message unit can fault.  In particular an
empty first batch alone does not stop the worker, and with a non-empty batch
between two empty batches the worker does not stop at the second empty one. -/
theorem c2_stops_iff_first_two_empty (rmin : ReceiveMessageInput) (dest : Option String)
    (fifo : Bool) (o : Oracle) (polls : List ReceiveResult) (k : Nat) :
    (((transferMessages rmin dest fifo o polls).outcome = .returned
        ∧ (batchSizes (transferMessages rmin dest fifo o polls).trace).length = k + 1)
      ↔ firstEmptyPairAt (batchSizes (transferMessages rmin dest fifo o polls).trace) k)
    ∧ (pollsWellFormed fifo polls = true → pollsHaveReceiptHandles polls = true →
        (((transferMessages rmin dest fifo o polls).outcome = .returned
            ∧ (batchSizes (transferMessages rmin dest fifo o polls).trace).length = k + 1)
          ↔ firstEmptyPairAt (polls.map (fun r => r.Messages.length)) k))
    ∧ (transferMessages rmin dest fifo o [⟨[], none⟩]).outcome = .awaiting
    ∧ (∀ (m : Message) (ms : List Message),
        (transferMessages rmin dest fifo o
          [⟨[], none⟩, ⟨m :: ms, none⟩, ⟨[], none⟩]).outcome ≠ .returned) := by
  have h0 : ∀ p, processBatch fifo rmin dest o p 0 [] = ([], none) := fun _ => rfl
  have hfirst : (transferMessages rmin dest fifo o [⟨[], none⟩]).outcome = .awaiting := by
    simp [transferMessages, loop, loopBody, h0]
  have hbetween : ∀ (m : Message) (ms : List Message),
      (transferMessages rmin dest fifo o
        [⟨[], none⟩, ⟨m :: ms, none⟩, ⟨[], none⟩]).outcome ≠ .returned := by
    intro m ms
    simp only [transferMessages, loop, loopBody, h0]
    rcases hb : processBatch fifo rmin dest o 1 0 (m :: ms) with ⟨evb, _ | f⟩
    · simp [hb]
    · simp [hb]
  have T : ∀ k, (((transferMessages rmin dest fifo o polls).outcome = .returned
        ∧ (batchSizes (transferMessages rmin dest fifo o polls).trace).length = k + 1)
      ↔ firstEmptyPairAt (batchSizes (transferMessages rmin dest fifo o polls).trace) k) := by
    intro k
    rw [firstEmptyPairAt_iff]
    exact loop_returned_iff fifo rmin dest o polls 1 0 k
  refine ⟨T k, ?_, hfirst, hbetween⟩
  clear hfirst hbetween h0
  intro hwf hrh
  have hall := wellFormed_of_flags fifo polls hwf hrh
  obtain ⟨t, hS, ht⟩ := loop_batchSizes_of_wellFormed fifo rmin dest o polls hall 1 0
  obtain ⟨-, -, -, hout⟩ := loop_of_wellFormed fifo rmin dest o o polls hall 1 0
  have hne : (transferMessages rmin dest fifo o polls).outcome = .returned →
      batchSizes (transferMessages rmin dest fifo o polls).trace ≠ [] :=
    loop_returned_batchSizes_ne_nil fifo rmin dest o 1 0 polls
  change polls.map (fun r => r.Messages.length)
    = batchSizes (transferMessages rmin dest fifo o polls).trace ++ t at hS
  change (transferMessages rmin dest fifo o polls).outcome = .awaiting → t = [] at ht
  change (transferMessages rmin dest fifo o polls).outcome = .returned
    ∨ (transferMessages rmin dest fifo o polls).outcome = .awaiting at hout
  generalize transferMessages rmin dest fifo o polls = run at T hS ht hout hne ⊢
  generalize polls.map (fun r => r.Messages.length) = S at hS ⊢
  have hidx : ∀ i, i < (batchSizes run.trace).length → S[i]? = (batchSizes run.trace)[i]? := by
    intro i hi
    rw [hS, List.getElem?_append_left hi]
  have Fmono : ∀ k, k < (batchSizes run.trace).length →
      (firstEmptyPairAt (batchSizes run.trace) k ↔ firstEmptyPairAt S k) := by
    intro k hk
    unfold firstEmptyPairAt
    rw [hidx k hk, hidx (k - 1) (by omega)]
    constructor
    · rintro ⟨h1, h2, h3, h4⟩
      refine ⟨h1, h2, h3, fun j hj hj1 => ?_⟩
      rw [hidx j (by omega), hidx (j - 1) (by omega)]
      exact h4 j hj hj1
    · rintro ⟨h1, h2, h3, h4⟩
      refine ⟨h1, h2, h3, fun j hj hj1 => ?_⟩
      have := h4 j hj hj1
      rwa [hidx j (by omega), hidx (j - 1) (by omega)] at this
  constructor
  · intro h
    exact (Fmono k (by omega)).mp ((T k).mp h)
  · intro hF
    rcases hout with hret | haw
    · obtain ⟨k', hk'⟩ : ∃ k', (batchSizes run.trace).length = k' + 1 := by
        have := List.length_pos.mpr (hne hret)
        exact ⟨(batchSizes run.trace).length - 1, by omega⟩
      have hFs : firstEmptyPairAt (batchSizes run.trace) k' := (T k').mp ⟨hret, hk'⟩
      have hFS : firstEmptyPairAt S k' := (Fmono k' (by omega)).mp hFs
      rcases Nat.lt_trichotomy k' k with hlt | heq | hgt
      · exact absurd ⟨hFS.2.1, hFS.2.2.1⟩ (hF.2.2.2 k' hlt hFS.1)
      · subst heq
        exact ⟨hret, hk'⟩
      · have := (T k).mpr ((Fmono k (by omega)).mpr hF)
        omega
    · have hts := ht haw
      subst hts
      rw [List.append_nil] at hS
      subst hS
      exact (T k).mpr hF

/-- Witness of C2: with batch sizes `0, 1, 0, 0, 1` in standard mode the
worker stops at poll `3` having received four batches; the empty first batch
does not stop it, and the fifth response is never asked for. -/
theorem c2_stops_iff_first_two_empty_witness :
    ((transferMessages (mkReceiveInput "src-url") (some "dest-url") false
          Oracle.allSucceed exPollsEmptyFirst).outcome = .returned
      ∧ (batchSizes (transferMessages (mkReceiveInput "src-url") (some "dest-url") false
          Oracle.allSucceed exPollsEmptyFirst).trace).length = 3 + 1)
    ∧ firstEmptyPairAt (exPollsEmptyFirst.map (fun r => r.Messages.length)) 3 :=
  have h : firstEmptyPairAt (exPollsEmptyFirst.map (fun r => r.Messages.length)) 3 := by
    decide
  ⟨((c2_stops_iff_first_two_empty (mkReceiveInput "src-url") (some "dest-url") false
      Oracle.allSucceed exPollsEmptyFirst 3).2.1 (by decide) (by decide)).mpr h, h⟩

/-- Witness of C7: after one empty batch (previous count `0`) a poll that
returns an error and no message panics the worker instead of stopping it
cleanly, and the response scripted after it is never asked for. -/
theorem c7_receive_error_is_fatal_witness :
    transferMessages (mkReceiveInput "src-url") (some "dest-url") false Oracle.allSucceed
        ([⟨[], none⟩] ++ ⟨[], some "timeout"⟩ :: [⟨[exFifoMessage], none⟩])
      = ⟨(transferMessages (mkReceiveInput "src-url") (some "dest-url") false
            Oracle.allSucceed [⟨[], none⟩]).trace
          ++ [.receive (mkReceiveInput "src-url") ⟨[], some "timeout"⟩],
        .panicked (.receiveError "timeout")⟩ :=
  (c7_receive_error_is_fatal (mkReceiveInput "src-url") (some "dest-url") false
    Oracle.allSucceed [⟨[], none⟩] [⟨[exFifoMessage], none⟩] ⟨[], some "timeout"⟩ "timeout"
    (by decide) rfl).1

/-- C8: when every poll succeeds and every message has the attributes its
mode requires (and its receipt handle, which every received message carries),
then for every outcome of the send and delete calls the worker never panics,
it ends as in the run where every send and delete succeeds, it issues the
same polls with the same responses, and every received message gets exactly
one send attempt, in order. -/
theorem c8_send_delete_failures_contained (rmin : ReceiveMessageInput)
    (dest : Option String) (fifo : Bool) (o : Oracle) (polls : List ReceiveResult)
    (hwf : pollsWellFormed fifo polls = true)
    (hrh : pollsHaveReceiptHandles polls = true) :
    (transferMessages rmin dest fifo o polls).outcome
        = (transferMessages rmin dest fifo Oracle.allSucceed polls).outcome
    ∧ receivesOf (transferMessages rmin dest fifo o polls).trace
        = receivesOf (transferMessages rmin dest fifo Oracle.allSucceed polls).trace
    ∧ (sendsOf (transferMessages rmin dest fifo o polls).trace).map Except.ok
        = (receivedMessages (transferMessages rmin dest fifo o polls).trace).map
            (fun m => buildMessageInput fifo m dest)
    ∧ ((transferMessages rmin dest fifo o polls).outcome = .returned
        ∨ (transferMessages rmin dest fifo o polls).outcome = .awaiting) :=
  loop_of_wellFormed fifo rmin dest o Oracle.allSucceed polls
    (wellFormed_of_flags fifo polls hwf hrh) 1 0

/-- Witness of C8 in FIFO mode with every send failing: the worker still
polls three times and stops cleanly; and so it does with every delete
failing. -/
theorem c8_send_delete_failures_contained_witness :
    (transferMessages (mkReceiveInput "src-url") (some "dest-url") true
        Oracle.sendsFail exPolls).outcome
      = (transferMessages (mkReceiveInput "src-url") (some "dest-url") true
          Oracle.allSucceed exPolls).outcome
    ∧ (transferMessages (mkReceiveInput "src-url") (some "dest-url") true
        Oracle.sendsFail exPolls).outcome = .returned
    ∧ (receivesOf (transferMessages (mkReceiveInput "src-url") (some "dest-url") true
        Oracle.sendsFail exPolls).trace).length = 3
    ∧ (transferMessages (mkReceiveInput "src-url") (some "dest-url") true
        Oracle.deletesFail exPolls).outcome = .returned
    ∧ (receivesOf (transferMessages (mkReceiveInput "src-url") (some "dest-url") true
        Oracle.deletesFail exPolls).trace).length = 3 :=
  ⟨(c8_send_delete_failures_contained (mkReceiveInput "src-url") (some "dest-url") true
      Oracle.sendsFail exPolls (by decide) (by decide)).1, by decide, by decide, by decide,
    by decide⟩

/-- C9: for every configuration, `main` prints usage and exits with status 1,
doing nothing else (no session, no worker), if and only if the source is
empty, or the destination is empty, or the worker count is less than 1;
otherwise it goes on to create the session; and with worker count 1 and fifo
false a configuration is rejected only for an empty source or destination. -/
theorem c9_usage_exit_iff_invalid (f : Flags) (sessionOk : Bool) :
    (main f sessionOk = [.usage, .exit 1]
        ↔ (f.src = "" ∨ f.dest = "" ∨ f.clients < 1))
    ∧ (MainEvent.usage ∈ main f sessionOk
        ↔ (f.src = "" ∨ f.dest = "" ∨ f.clients < 1))
    ∧ (MainEvent.newSession ∈ main f sessionOk
        ↔ ¬ (f.src = "" ∨ f.dest = "" ∨ f.clients < 1))
    ∧ (flagsRejected ⟨f.src, f.dest, 1, false⟩ = false ↔ (f.src ≠ "" ∧ f.dest ≠ "")) := by
  have hrej : flagsRejected f = true ↔ (f.src = "" ∨ f.dest = "" ∨ f.clients < 1) := by
    simp [flagsRejected, or_assoc]
  have hl : ∀ (c : Int) (fuel : Nat) (i : Int), MainEvent.usage ∉ launchLoop c fuel i
      ∧ MainEvent.newSession ∉ launchLoop c fuel i := by
    intro c fuel
    induction fuel with
    | zero => intro i; simp [launchLoop]
    | succ n ih =>
      intro i
      unfold launchLoop
      split
      · simp [ih (i + 1)]
      · simp
  by_cases h : flagsRejected f = true
  · have hc := hrej.mp h
    simp [main, h, hc]
    simp [flagsRejected]
  · have hc : ¬ (f.src = "" ∨ f.dest = "" ∨ f.clients < 1) := fun hh => h (hrej.mpr hh)
    refine ⟨?_, ?_, ?_, ?_⟩
    · simp [main, h, hc]
    · cases sessionOk <;> simp [main, h, hc, (hl f.clients f.clients.toNat 1).1]
    · simp [main, h, hc]
    · simp [flagsRejected]

/-- C3, what the code does: for a valid configuration with `n ≥ 1` workers,
`main` launches exactly `n` workers, but its `wg.Add(i)` registers
`1 + 2 + ... + n = n (n + 1) / 2` pending completions, so after each worker
has signalled once `n (n - 1) / 2` are still pending, and `main` gets past
`wg.Wait()` to "all done" exactly when `n = 1`. -/
theorem c3_wait_group_registers_triangular (src dest : String) (fifo : Bool) (n : Nat)
    (hs : src ≠ "") (hd : dest ≠ "") (hn : 1 ≤ n) :
    workersLaunched (main ⟨src, dest, n, fifo⟩ true) = n
    ∧ 2 * wgCounter (main ⟨src, dest, n, fifo⟩ true) = (n : Int) * (n + 1)
    ∧ 2 * pendingAfterWorkersDone ⟨src, dest, n, fifo⟩ = (n : Int) * (n - 1)
    ∧ (reachesAllDone ⟨src, dest, n, fifo⟩ = true ↔ n = 1) := by
  have hrej : flagsRejected ⟨src, dest, n, fifo⟩ = false := by
    simp [flagsRejected, hs, hd]
    omega
  obtain ⟨h1, h2⟩ := launchLoop_counts (n : Int) n 1 (by omega)
  have hw : workersLaunched (main ⟨src, dest, n, fifo⟩ true) = n := by
    simp [main, hrej, workersLaunched, workersLaunched_append, h1]
  have hc : 2 * wgCounter (main ⟨src, dest, n, fifo⟩ true) = (n : Int) * (n + 1) := by
    simp only [main, hrej, Bool.false_eq_true, if_false, if_true, List.cons_append,
      List.nil_append, wgCounter, wgCounter_append, Int.toNat_ofNat, Int.add_zero, h2]
    ring
  have hp : 2 * pendingAfterWorkersDone ⟨src, dest, n, fifo⟩ = (n : Int) * (n - 1) := by
    unfold pendingAfterWorkersDone
    rw [hw, Int.mul_sub, hc]
    ring
  refine ⟨hw, hc, hp, ?_⟩
  unfold reachesAllDone
  rw [beq_iff_eq]
  constructor
  · intro h0
    rw [h0] at hp
    have h := hp.symm
    simp only [mul_zero, mul_eq_zero] at h
    omega
  · intro h1
    subst h1
    simpa using hp

/-- C3 at two workers: two workers are launched, the wait group holds 3, one
completion is still pending after both workers are done, and "all done" is not
reached. -/
theorem c3_wait_group_registers_triangular_witness :
    (workersLaunched (main ⟨"src-url", "dest-url", 2, false⟩ true) = 2
      ∧ 2 * wgCounter (main ⟨"src-url", "dest-url", 2, false⟩ true) = (2 : Nat) * ((2 : Nat) + 1)
      ∧ 2 * pendingAfterWorkersDone ⟨"src-url", "dest-url", 2, false⟩
          = (2 : Nat) * ((2 : Nat) - 1)
      ∧ (reachesAllDone ⟨"src-url", "dest-url", 2, false⟩ = true ↔ 2 = 1))
    ∧ wgCounter (main ⟨"src-url", "dest-url", 2, false⟩ true) = 3
    ∧ pendingAfterWorkersDone ⟨"src-url", "dest-url", 2, false⟩ = 1
    ∧ reachesAllDone ⟨"src-url", "dest-url", 2, false⟩ = false :=
  ⟨c3_wait_group_registers_triangular "src-url" "dest-url" false 2 (by decide) (by decide)
      (by decide), by decide, by decide, by decide⟩

/-- C10 as amended: under every schedule, what each worker has done is an
initial part of the run it makes on its own, and a worker that has ended has
made exactly that run (workers do not affect each other and nothing cancels
them); the program is ended exactly when some worker has panicked; and once
it is ended no worker makes any further call, whatever is scheduled. -/
theorem c10_panic_ends_every_worker (fifo : Bool) (rmin : ReceiveMessageInput)
    (dest : Option String) (envs : List (Oracle × List ReceiveResult))
    (schedule : List Nat) :
    (∀ (i : Nat) (w : Worker),
        (Process.run fifo rmin dest (Process.start envs) schedule).workers[i]? = some w →
        ∃ env : Oracle × List ReceiveResult, envs[i]? = some env
          ∧ w.trace <+: (transferMessages rmin dest fifo env.1 env.2).trace
          ∧ (w.outcome ≠ .awaiting →
              (⟨w.trace, w.outcome⟩ : Run) = transferMessages rmin dest fifo env.1 env.2))
    ∧ ((Process.run fifo rmin dest (Process.start envs) schedule).crashed = true
        ↔ ∃ w ∈ (Process.run fifo rmin dest (Process.start envs) schedule).workers,
            w.outcome.isPanicked = true)
    ∧ ((Process.run fifo rmin dest (Process.start envs) schedule).crashed = true →
        ∀ more, Process.run fifo rmin dest (Process.start envs) (schedule ++ more)
          = Process.run fifo rmin dest (Process.start envs) schedule) := by
  refine ⟨?_, ?_, ?_⟩
  · intro i w hw
    have hf := Process.run_final fifo rmin dest schedule (Process.start envs)
    have hi : ((Process.run fifo rmin dest (Process.start envs) schedule).workers.map
          (Worker.final fifo rmin dest))[i]?
        = ((envs.map Worker.start).map (Worker.final fifo rmin dest))[i]? :=
      congrArg (fun l => l[i]?) hf
    rw [List.getElem?_map, hw, List.getElem?_map, List.getElem?_map] at hi
    cases he : envs[i]? with
    | none =>
      rw [he] at hi
      cases hi
    | some env =>
      rw [he] at hi
      simp only [Option.map_some', Option.some.injEq, Worker.final_start] at hi
      obtain ⟨h1, h2⟩ := Worker.trace_initial_of_final fifo rmin dest w
      rw [hi] at h1 h2
      exact ⟨env, rfl, h1, h2⟩
  · apply Process.run_crashed_iff
    simp only [Process.start, Bool.false_eq_true, List.mem_map, false_iff, not_exists, not_and]
    rintro w ⟨env, -, rfl⟩
    simp [Worker.start, Outcome.isPanicked]
  · intro hc more
    simp only [Process.run, List.foldl_append]
    exact Process.run_of_crashed fifo rmin dest more _ hc

/-- C10 as stated fails: with two workers, when the first poll of worker 0
fails its panic ends the program, and worker 1, which on its own polls three
times, forwards and deletes its message and stops cleanly, makes no call at
all, whatever is scheduled afterwards. -/
theorem c10_poll_fault_stops_siblings :
    ((Process.run false (mkReceiveInput "src-url") (some "dest-url")
        (Process.start exTwoWorkers) [0, 1, 1, 1]).workers.map (fun w => w.trace)
      = [[.receive (mkReceiveInput "src-url") ⟨[], some "timeout"⟩], []])
    ∧ (transferMessages (mkReceiveInput "src-url") (some "dest-url") false
        Oracle.allSucceed exPolls
      = ⟨[.receive (mkReceiveInput "src-url") ⟨[exFifoMessage], none⟩,
          .send ⟨[("k", "v")], some "x", some "dest-url", none, none⟩ true,
          .delete ⟨some "src-url", some "rh-1"⟩ true,
          .receive (mkReceiveInput "src-url") ⟨[], none⟩,
          .receive (mkReceiveInput "src-url") ⟨[], none⟩],
        .returned⟩)
    ∧ ¬ siblingsUnaffected false (mkReceiveInput "src-url") (some "dest-url")
        exTwoWorkers := by
  refine ⟨by decide, by decide, ?_⟩
  intro h
  obtain ⟨more, hmore⟩ := h [0]
    0 ((Process.run false (mkReceiveInput "src-url") (some "dest-url")
        (Process.start exTwoWorkers) [0]).workers.get ⟨0, by decide⟩) "timeout"
    rfl rfl
  obtain ⟨w', hw', htr⟩ := hmore 1 (Oracle.allSucceed, exPolls) (by decide) rfl
  have hfrozen : Process.run false (mkReceiveInput "src-url") (some "dest-url")
        (Process.start exTwoWorkers) ([0] ++ more)
      = Process.run false (mkReceiveInput "src-url") (some "dest-url")
        (Process.start exTwoWorkers) [0] := by
    simp only [Process.run, List.foldl_append]
    exact Process.run_of_crashed _ _ _ more _ (by decide)
  rw [hfrozen] at hw'
  have hw1 : (Process.run false (mkReceiveInput "src-url") (some "dest-url")
        (Process.start exTwoWorkers) [0]).workers[1]?
      = some (Worker.start (Oracle.allSucceed, exPolls)) := by
    rfl
  rw [hw1] at hw'
  cases hw'
  revert htr
  decide

end Sqsmv
